import Mathlib

/-
Verification development for the LConfig configuration store (src/lconfig.py).

The Python code is shallowly embedded below.  The store (`LConfig._data`, an
OrderedDict from dotted key to list of raw string values) is modelled as an
insertion-ordered association list with unique keys; each mutating operation of the
source is translated into a pure function on that list.  Python exceptions are
modelled by `Option`/`Except` results: an operation that raises before mutating
anything is a function returning `none`/`.error`.  Incoming values are taken to
be strings (the source calls `str(value)` on them; on a string that is the
identity), and truthiness of a string value is `v ≠ ""` as in Python.
-/

set_option autoImplicit false

/-- One raw-value list, as stored for a single key. -/
abbrev RawList := List String

/-- The store `LConfig._data`: an `OrderedDict[str, List[str]]`, modelled as an
insertion-ordered association list.  All operations below preserve key
uniqueness, and iteration order is list order (= first-write order). -/
abbrev Store := List (String × RawList)

/-- Character membership in `_KEY_CHARS = ascii_lowercase + digits + "." + "_"`
(the same set is used by `Interpolate.idpattern`).  Encoded numerically:
97..122 = a..z, 48..57 = 0..9, 46 = '.', 95 = '_'. -/
def isKeyChar (c : Char) : Bool :=
  (97 ≤ c.toNat && c.toNat ≤ 122) || (48 ≤ c.toNat && c.toNat ≤ 57) ||
    c.toNat == 46 || c.toNat == 95

/-- Python whitespace as stripped by `str.strip()`, restricted to the ASCII
range: space, tab, newline, carriage return, vertical tab, form feed.
(Non-ASCII Unicode whitespace is outside the character sets handled here.) -/
def isSpaceChar (c : Char) : Bool :=
  c.toNat == 32 || c.toNat == 9 || c.toNat == 10 || c.toNat == 13 ||
    c.toNat == 11 || c.toNat == 12

/-- `str.strip()` on a character list: drop whitespace from both ends. -/
def strip_chars (l : List Char) : List Char :=
  ((l.dropWhile isSpaceChar).reverse.dropWhile isSpaceChar).reverse

/-- `key.startswith(p)` of the source. -/
def str_startswith (s p : String) : Bool :=
  p.data.isPrefixOf s.data

/-- `key.endswith(p)` of the source. -/
def str_endswith (s p : String) : Bool :=
  p.data.isSuffixOf s.data

/-- `key.split(".")` of the source, on the character list: split on every dot;
`"".split(".") = [""]`, `"a.".split(".") = ["a", ""]`. -/
def split_dot : List Char → List (List Char)
  | [] => [[]]
  | c :: rest =>
    if c = '.' then [] :: split_dot rest
    else
      match split_dot rest with
      | [] => [[c]]
      | l :: ls => (c :: l) :: ls

/-- `value.split(sep)` for a single-character separator, Python style: the
result always has at least one element. -/
def split_on_char (sep : Char) : List Char → List (List Char)
  | [] => [[]]
  | c :: rest =>
    if c = sep then [] :: split_on_char sep rest
    else
      match split_on_char sep rest with
      | [] => [[c]]
      | l :: ls => (c :: l) :: ls

/-- `".".join(parts)` of the source. -/
def join_dot : List String → String
  | [] => ""
  | [p] => p
  | p :: q :: rest => p ++ "." ++ join_dot (q :: rest)

/-- `str.splitlines()` restricted to `\n` boundaries: a trailing newline does
not produce a final empty line, matching Python (`"a\n".splitlines() = ["a"]`).
Other Python line boundaries (`\r`, form feed, ...) are excluded by the
hypotheses of the theorems that use this. -/
def split_nl : List Char → List (List Char)
  | [] => []
  | c :: rest =>
    if c = '\n' then [] :: split_nl rest
    else
      match split_nl rest with
      | [] => [[c]]
      | l :: ls => (c :: l) :: ls

/-- `line.partition("=")`: split at the first `=`; `none` when no `=` occurs
(the source then raises `ValueError`). -/
def partition_eq : List Char → Option (List Char × List Char)
  | [] => none
  | c :: rest =>
    if c = '=' then some ([], rest)
    else (partition_eq rest).map (fun p => (c :: p.1, p.2))

/-- Concatenation of a list of strings (successive `data.write(...)` calls of
`write_data` accumulate exactly this). -/
def concatStrs : List String → String
  | [] => ""
  | s :: rest => s ++ concatStrs rest

/-- `self._data[key]` lookup (`None`/`KeyError` modelled as `Option`). -/
def storeFind? : Store → String → Option RawList
  | [], _ => none
  | e :: rest, key => if e.1 = key then some e.2 else storeFind? rest key

/-- `self._data[key] = values` on an OrderedDict: replace in place if the key
is present (keeping its position), otherwise append at the end. -/
def storeInsert : Store → String → RawList → Store
  | [], key, vs => [(key, vs)]
  | e :: rest, key, vs =>
    if e.1 = key then (key, vs) :: rest else e :: storeInsert rest key vs

/-- `del self._data[key]`: remove the key.  (On an absent key the source raises
`KeyError` and leaves the store unchanged; removal of an absent key is the
identity here, which yields the same set of states.) -/
def storeErase : Store → String → Store
  | [], _ => []
  | e :: rest, key => if e.1 = key then rest else e :: storeErase rest key

/-- `make_prefix(prefix, key)` from the source. -/
def make_prefix (pre : String) (key : String := "") : String :=
  if pre ≠ "" ∧ ¬ str_endswith pre "." then pre ++ "." ++ key
  else pre ++ key

/-- The loop of `LConfig.resolve_name`: repeatedly probe `search_key` in the
raw data and pop the last element of `key_parts`, recomputing
`search_key = ".".join(key_parts) + "."`.  The loop runs `while key_parts`,
popping one part per iteration, so an explicit iteration counter equal to the
number of parts makes the recursion structural; the counter never reaches zero
before the part list empties.  A hit returns `str(values[-1])`; `values[-1]`
on an empty entry would raise `IndexError` in Python, which cannot happen for
entries created through the write path (they are never empty) and is rendered
as `""` here. -/
def resolve_loop (data : Store) : Nat → List String → String → Option String → Option String
  | 0, _, _, default => default
  | _ + 1, [], _, default => default
  | n + 1, p :: ps, search_key, default =>
    match storeFind? data search_key with
    | some vs => some (vs.getLastD "")
    | none =>
      resolve_loop data n ((p :: ps).dropLast)
        (join_dot ((p :: ps).dropLast) ++ ".") default

/-- `LConfig.resolve_name(key, prefix, default)` from the source. -/
def resolve_name (data : Store) (key : String) (pre : String := "")
    (default : Option String := none) : Option String :=
  if str_startswith key "." then some "dot"
  else if key = "" then default
  else
    let parts := pre :: (split_dot key.data).map String.mk
    resolve_loop data parts.length parts (pre ++ "." ++ key) default

/-- `LConfig.adapt_key`: raises `ValueError` iff some character of the key is
outside `_KEY_CHARS`.  (`set(key) - _KEY_CHARS` is empty iff every character is
allowed; the empty key passes this check.) -/
def adapt_key_ok (key : String) : Bool :=
  key.data.all isKeyChar

/-- Python exceptions surfaced by the embedded operations. -/
inductive PyErr where
  /-- `KeyError` carrying the missing key (`KeyNotFoundError` of the spec). -/
  | keyError (key : String) : PyErr
  /-- `ValueError` (invalid key characters, parse failures, bad placeholders;
  the spec's `InvalidKeyError` / `FormatError`). -/
  | valueError : PyErr
  /-- `IndexError` from `values[-1]` on an empty list. -/
  | indexError : PyErr
  /-- `RecursionError`: unbounded converter recursion (models fuel running
  out in the fuelled read function below). -/
  | recursionError : PyErr
deriving DecidableEq

/-- Typed results produced by converters (the value returned by
`LConfig.__getitem__`).  Floating point numbers and decoded JSON are kept as
the undigested source text: no claim depends on their numeric/structured
value, only on which raw element is consumed and which errors arise. -/
inductive Value where
  | str (s : String) : Value
  | bool (b : Bool) : Value
  | int (i : Int) : Value
  /-- Result of `float(values[-1])`; the literal is kept symbolic. -/
  | real (s : String) : Value
  | strlist (l : List String) : Value
  | intlist (l : List Int) : Value
  /-- Result of `json.loads(values[-1])`; kept symbolic (decoding never
  raises `IndexError`, which is all the claims need). -/
  | json (s : String) : Value
  /-- An `LConfigProxy` over the given prefix. -/
  | proxy (pre : String) : Value
deriving DecidableEq

/-- `str(...)` of a converted value, as used by interpolation (`'%s' % v`).
Exact Python `repr` formatting of lists/objects is approximated; the claims
only interpolate plain strings. -/
def strOfValue : Value → String
  | .str s => s
  | .bool b => if b then "True" else "False"
  | .int i => toString i
  | .real s => s
  | .strlist l =>
    let q := String.singleton (Char.ofNat 39)
    "[" ++ String.intercalate ", " (l.map (fun s => q ++ s ++ q)) ++ "]"
  | .intlist l => "[" ++ String.intercalate ", " (l.map toString) ++ "]"
  | .json s => s
  | .proxy p => "<LConfigProxy " ++ p ++ ">"

/-- An adapter: `(key, value, values, config) -> values` (pure, may read the
store, returns the new raw list). -/
abbrev AdapterFn := String → String → RawList → Store → RawList

/-- `Adapter.raw`: `values.append(str(value))`. -/
def adapterRaw : AdapterFn := fun _ v vs _ => vs ++ [v]

/-- `Adapter.overwrite`: `[str(value)]`. -/
def adapterOverwrite : AdapterFn := fun _ v _ _ => [v]

/-- `Adapter.append`: append the stringified value if it is truthy. -/
def adapterAppend : AdapterFn := fun _ v vs _ => if v ≠ "" then vs ++ [v] else vs

/-- `Adapter.concat`: concatenate onto `values[0]`, seeding on first write. -/
def adapterConcat : AdapterFn := fun _ v vs _ =>
  if v ≠ "" then
    match vs with
    | [] => [v]
    | x :: rest => (x ++ v) :: rest
  else vs

/-- `Adapter.append_default`: append if truthy, else reset to the resolved
`.default` entry (with default name `""`). -/
def adapterAppendDefault : AdapterFn := fun k v vs data =>
  if v ≠ "" then vs ++ [v]
  else [(resolve_name data k ".default" (some "")).getD ""]

/-- `Adapter.append_delete`: append if truthy, else return `[]` (deletes). -/
def adapterAppendDelete : AdapterFn := fun _ v vs _ =>
  if v ≠ "" then vs ++ [v] else []

/-- `Adapter.append_remove`: append if truthy, else pop the last value. -/
def adapterAppendRemove : AdapterFn := fun _ v vs _ =>
  if v ≠ "" then vs ++ [v] else vs.dropLast

/-- `Adapter.listing`: split the value on commas, strip each part, extend with
the non-empty parts.  (`str.split(",")` always returns a non-empty list, so
the `if new_values` guard of the source is always taken.) -/
def adapterListing : AdapterFn := fun _ v vs _ =>
  vs ++ (((split_on_char ',' v.data).map (fun l => String.mk (strip_chars l))).filter
    (fun s => s ≠ ""))

/-- `Adapter.json`: a string value is appended as is (non-string inputs, which
the source passes through `json.dumps`, are outside this embedding where all
incoming values are strings). -/
def adapterJson : AdapterFn := fun _ v vs _ => if v ≠ "" then vs ++ [v] else vs

/-- The adapter registry built by `LConfig.__init__` from
`inspect.getmembers(Adapter, isfunction)`: every static method plus the
aliases `default = append` and `dot = overwrite`. -/
def builtinAdapters : String → Option AdapterFn
  | "raw" => some adapterRaw
  | "overwrite" => some adapterOverwrite
  | "append" => some adapterAppend
  | "concat" => some adapterConcat
  | "append_default" => some adapterAppendDefault
  | "append_delete" => some adapterAppendDelete
  | "append_remove" => some adapterAppendRemove
  | "listing" => some adapterListing
  | "json" => some adapterJson
  | "default" => some adapterAppend
  | "dot" => some adapterOverwrite
  | _ => none

/-- The new raw list computed inside `LConfig.__setitem__`: the current list
(empty if the key is absent), handed to the adapter resolved for the key; with
no registered adapter of that name, `values.append(str(value))`. -/
def adapter_result (reg : String → Option AdapterFn) (data : Store)
    (key value : String) : RawList :=
  let values := (storeFind? data key).getD []
  match reg ((resolve_name data key ".adapt" (some "default")).getD "default") with
  | some f => f key value values data
  | none => values ++ [value]

/-- `LConfig.__setitem__(key, value)` with adapter registry `reg`:
validate the key (`ValueError`, i.e. `none`, raised before any mutation),
run the adapter, then store the non-empty result or delete the key on an
empty result (`elif key in self._data: del self._data[key]`; erasing an
absent key is the identity, matching the source's no-op branch). -/
def setItemWith (reg : String → Option AdapterFn) (data : Store)
    (key value : String) : Option Store :=
  if adapt_key_ok key then
    let values := adapter_result reg data key value
    if values = [] then some (storeErase data key)
    else some (storeInsert data key values)
  else none

/-- `LConfig.__setitem__` with the default built-in adapter registry. -/
def setItem (data : Store) (key value : String) : Option Store :=
  setItemWith builtinAdapters data key value

/-- `int(s)` on a string: surrounding whitespace, an optional sign, then at
least one decimal digit.  (Python also accepts underscore digit separators;
no claim exercises integer parsing, only whether it raises `IndexError`.) -/
def parseInt? (s : String) : Option Int :=
  let t := strip_chars s.data
  let core :=
    match t with
    | '-' :: rest => some (true, rest)
    | '+' :: rest => some (false, rest)
    | _ => some (false, t)
  match core with
  | some (neg, digits) =>
    if digits ≠ [] ∧ digits.all (fun c => 48 ≤ c.toNat && c.toNat ≤ 57) then
      let n := digits.foldl (fun acc c => acc * 10 + (c.toNat - 48)) (0 : Nat)
      some (if neg then -(n : Int) else (n : Int))
    else none
  | none => none

/-- `values[-1]` (raises `IndexError` on an empty list). -/
def lastVal (vs : RawList) : Except PyErr String :=
  match vs.getLast? with
  | some v => .ok v
  | none => .error .indexError

/-- One pass of `string.Template.substitute` with
`idpattern = [\._a-z0-9][\._a-z0-9]*` (the key character set) and mapping
`config`: `$$` is a literal dollar, `$name` and `$\x7bname\x7d` are replaced by
`lookup name`, and a dollar followed by anything else raises
`ValueError` (an invalid placeholder).  The text scanned is consumed left to
right exactly once; replacement text is spliced in verbatim.  The recursion
consumes at least one character per step, so a counter equal to the length of
the text makes it structural (the counter cannot run out first). -/
def substChars (lookup : String → Except PyErr String) :
    Nat → List Char → Except PyErr (List Char)
  | 0, _ => .ok []
  | _ + 1, [] => .ok []
  | n + 1, c :: rest =>
    if c = '$' then
      match rest with
      | [] => .error .valueError
      | d :: r =>
        if d = '$' then (substChars lookup n r).map (fun t => '$' :: t)
        else if d = '{' then
          let name := r.takeWhile isKeyChar
          let r2 := r.dropWhile isKeyChar
          if name ≠ [] ∧ r2.head? = some ('}' : Char) then
            (lookup (String.mk name)).bind
              (fun s => (substChars lookup n r2.tail).map (fun t => s.data ++ t))
          else .error .valueError
        else if isKeyChar d then
          (lookup (String.mk ((d :: r).takeWhile isKeyChar))).bind
            (fun s =>
              (substChars lookup n ((d :: r).dropWhile isKeyChar)).map
                (fun t => s.data ++ t))
        else .error .valueError
    else (substChars lookup n rest).map (fun t => c :: t)

/-- `Interpolate(value).substitute(config)` where `lookup` reads a referenced
key from the store and stringifies the result. -/
def substitute (lookup : String → Except PyErr String) (s : String) :
    Except PyErr String :=
  (substChars lookup s.data.length s.data).map String.mk

/-- Names of the built-in converters (the strategy actually run is selected by
name through the registry, so the embedding keeps converters first order). -/
inductive ConvName where
  | string | raw | boolean | integer | real | stringlist | intlist
  | interpolate | json | stringjoin
deriving DecidableEq

/-- `Converter.BOOLEAN_STATES.get(last_value, False)`: the fixed vocabulary,
any other string mapping to `False`. -/
def booleanState (s : String) : Bool :=
  if s = "1" ∨ s = "yes" ∨ s = "true" ∨ s = "on" then true else false

/-- `str.lower()` restricted to ASCII letters. -/
def lower_str (s : String) : String :=
  String.mk (s.data.map (fun c =>
    if 65 ≤ c.toNat ∧ c.toNat ≤ 90 then Char.ofNat (c.toNat + 32) else c))

/-- `[int(v) for v in values]`: parse every element, failing on the first
element `int()` rejects. -/
def parse_int_list : List String → Option (List Int)
  | [] => some []
  | v :: rest =>
    match parseInt? v, parse_int_list rest with
    | some i, some l => some (i :: l)
    | _, _ => none

/-- Run one built-in converter on `(key, values, config)`.  `lookup` is the
read-back into the store used by interpolation (`config[name]`, stringified).
Every scalar converter starts from `values[-1]` (`lastVal`). -/
def applyConv (c : ConvName) (_key : String) (vs : RawList)
    (lookup : String → Except PyErr String) : Except PyErr Value :=
  match c with
  | .string => (lastVal vs).map .str
  | .raw => .ok (.strlist vs)
  | .boolean => (lastVal vs).map (fun v => .bool (booleanState (lower_str v)))
  | .integer =>
    match lastVal vs with
    | .ok v =>
      match parseInt? v with
      | some i => .ok (.int i)
      | none => .error .valueError
    | .error e => .error e
  | .real => (lastVal vs).map .real
  | .stringlist => .ok (.strlist vs)
  | .intlist =>
    match parse_int_list vs with
    | some l => .ok (.intlist l)
    | none => .error .valueError
  | .interpolate =>
    match lastVal vs with
    | .ok v =>
      if v.data.contains '$' then (substitute lookup v).map .str
      else .ok (.str v)
    | .error e => .error e
  | .json => (lastVal vs).map .json
  | .stringjoin => .ok (.str (String.intercalate "\n" vs))

/-- The converter registry built from `inspect.getmembers(Converter)`, with
the aliases `default = string` and `dot = string`. -/
def builtinConverters : String → Option ConvName
  | "string" => some .string
  | "raw" => some .raw
  | "boolean" => some .boolean
  | "integer" => some .integer
  | "real" => some .real
  | "stringlist" => some .stringlist
  | "intlist" => some .intlist
  | "interpolate" => some .interpolate
  | "json" => some .json
  | "stringjoin" => some .stringjoin
  | "default" => some .string
  | "dot" => some .string
  | _ => none

/-- `LConfig.__getitem__(key)` with the built-in converter registry.  A miss
on a key ending in `.` yields an `LConfigProxy` (whose stored prefix is
`make_prefix(key)`), any other miss raises `KeyError`.  A hit resolves the
converter name over the `.convert` namespace and runs the converter; with no
registered converter of that name the raw list is returned unconverted.
Interpolation reads back into the store through `__getitem__` itself; the
fuel bounds that recursion depth, and exhausting it models Python's
`RecursionError` on cyclic references. -/
def getItemF : Nat → Store → String → Except PyErr Value
  | 0, _, _ => .error .recursionError
  | n + 1, data, key =>
    match storeFind? data key with
    | none =>
      if str_endswith key "." then .ok (.proxy ( make_prefix key))
      else .error (.keyError key)
    | some values =>
      match builtinConverters
          ((resolve_name data key ".convert" (some "default")).getD "default") with
      | some c =>
        applyConv c key values
          (fun k => (getItemF n data k).map strOfValue)
      | none => .ok (.strlist values)

-- A node of the nested string-keyed structure consumed by
-- `LConfig.read_dict`: a string leaf, a sequence leaf, or a nested mapping
-- (given as its ordered list of entries, in iteration order).
mutual
inductive DictVal where
  | str (s : String) : DictVal
  | map (m : DictEntries) : DictVal
  /-- A non-string, non-mapping iterable; its elements stringified (they are
  taken to be strings already in this embedding). -/
  | seq (l : List String) : DictVal
inductive DictEntries where
  | nil : DictEntries
  | cons (key : String) (v : DictVal) (rest : DictEntries) : DictEntries
end

-- `LConfig.read_dict(data, prefix)` with adapter registry `reg`.  The result
-- pairs the final store with a success flag: a `False` flag means the underlying
-- `__setitem__` raised (invalid key) at that point; mutations performed before
-- the raise persist, as in Python.  String leaves go through `__setitem__`,
-- mappings recurse under `make_prefix(prefix, key)`, anything else is written
-- into `_data` directly (`set_raw` semantics, bypassing the adapters).
mutual
def read_dictWith (reg : String → Option AdapterFn) (data : Store) :
    DictEntries → String → Store × Bool
  | .nil, _ => (data, true)
  | .cons k v rest, pre =>
    match read_entryWith reg data ( make_prefix pre k) v with
    | (d2, true) => read_dictWith reg d2 rest pre
    | (d2, false) => (d2, false)
def read_entryWith (reg : String → Option AdapterFn) (data : Store)
    (pk : String) : DictVal → Store × Bool
  | .str s =>
    match setItemWith reg data pk s with
    | some d2 => (d2, true)
    | none => (data, false)
  | .map m => read_dictWith reg data m pk
  | .seq l => (storeInsert data pk l, true)
end

/-- `LConfig.read_dict` with the built-in adapters. -/
def read_dict (data : Store) (d : DictEntries) (pre : String) : Store × Bool :=
  read_dictWith builtinAdapters data d pre

/-- One `key = value` output line of `LConfig.write_data` (without the
trailing newline). -/
def lineOf (k v : String) : String :=
  k ++ " = " ++ v

/-- `LConfig.write_data(data, key_filter)`.  The source rebinds `key_filter`
to `lambda key: True if key_filter is None else key_filter` before the loop;
inside that lambda, `key_filter` refers to the rebound local — the lambda
itself — so the lambda always returns a truthy object and every key passes,
whatever filter the caller supplied.  The emitted text is one
`key = value` line per raw value, in store iteration order, for every key. -/
def write_data (data : Store) (_key_filter : Option (String → Bool)) : String :=
  concatStrs (data.map (fun e => concatStrs (e.2.map (fun v => lineOf e.1 v ++ "\n"))))

/-- `StrictParser.read_data`, line by line, on already-split lines: strip the
line; skip comments and blank lines; split at the first `=` (`ValueError`,
i.e. `none`, with none present); strip the key (`KeyError` if empty) and the
value; then `lconfig[make_prefix(prefix, key)] = value` through the normal
write path with the built-in adapters.  `none` models the raised exception. -/
def strict_parse_lines (data : Store) (pre : String) :
    List (List Char) → Option Store
  | [] => some data
  | line :: rest =>
    let l := strip_chars line
    if l.head? = some '#' ∨ l = [] then strict_parse_lines data pre rest
    else
      match partition_eq l with
      | none => none
      | some (kp, vp) =>
        let kl := strip_chars kp
        if kl = [] then none
        else
          let key := make_prefix pre (String.mk kl)
          let v := String.mk (strip_chars vp)
          match setItem data key v with
          | some d2 => strict_parse_lines d2 pre rest
          | none => none

/-- `LConfig.read_data(data, prefix)` on a string input with the default
`StrictParser`: the string is split into lines, then parsed. -/
def read_data (data : Store) (s : String) (pre : String := "") : Option Store :=
  strict_parse_lines data pre (split_nl s.data)

/-! ## Spec-side definitions

The definitions below are NOT translations of the source; they restate, in
executable form, what the specification text says, so that the source-derived
functions above can be proved equivalent to them (or shown to differ). -/

/-- Modelled from the spec (section 4.2): the candidate meta keys probed by
name resolution, most specific first — the full path
`namespacePrefix + "." + key`, then `namespacePrefix + "." + reducedSegments
+ "."` for progressively shorter segment lists, down to the bare
`namespacePrefix + "."`. -/
def candidate_keys (pre key : String) : List String :=
  let parts := (split_dot key.data).map String.mk
  (pre ++ "." ++ key) ::
    (List.range parts.length).reverse.map
      (fun i => join_dot (pre :: parts.take i) ++ ".")

/-- A probe of the raw data: the entry's last raw value on a hit. -/
def probe_last (data : Store) (k : String) : Option String :=
  (storeFind? data k).map (fun vs => vs.getLastD "")

/-- Modelled from the spec (section 4.2): name resolution as the spec words
it — meta keys resolve to `"dot"`, the empty key to the default, and
otherwise the first candidate present in the raw data wins with its last raw
value, falling back to the default. -/
def resolveNameSpec (data : Store) (key pre : String) (default : Option String) :
    Option String :=
  if str_startswith key "." then some "dot"
  else if key = "" then default
  else
    match (candidate_keys pre key).findSome? (probe_last data) with
    | some v => some v
    | none => default

/-- The `key = value` lines of the text export, one per raw value, in store
iteration order. -/
def linesOf : Store → List String
  | [] => []
  | e :: rest => e.2.map (lineOf e.1) ++ linesOf rest

/-- The invariant claimed for the store: every key present maps to a
non-empty raw-value list. -/
def StoreWF (data : Store) : Prop :=
  ∀ e ∈ data, e.2 ≠ []

instance : DecidablePred StoreWF := fun data =>
  inferInstanceAs (Decidable (∀ e ∈ data, e.2 ≠ []))

/-- Store states reachable through the public interface: the empty store,
followed by any sequence of writes, deletions and `read_dict` ingestions.
Registration calls only swap the adapter registry in effect, never touch
`_data`; quantifying over the registry used at each step therefore covers
any interleaving of registration operations. -/
inductive Reachable : Store → Prop where
  | empty : Reachable []
  | write (s s2 : Store) (reg : String → Option AdapterFn) (key v : String) :
      Reachable s → setItemWith reg s key v = some s2 → Reachable s2
  | del (s : Store) (key : String) :
      Reachable s → Reachable (storeErase s key)
  | dict (s : Store) (reg : String → Option AdapterFn) (d : DictEntries)
      (pre : String) :
      Reachable s → Reachable (read_dictWith reg s d pre).1

-- All sequence leaves of a nested structure are non-empty.
mutual
def DictVal.seqNE : DictVal → Prop
  | .str _ => True
  | .map m => m.seqNE
  | .seq l => l ≠ []
def DictEntries.seqNE : DictEntries → Prop
  | .nil => True
  | .cons _ v rest => v.seqNE ∧ rest.seqNE
end

/-- Store states reachable when every `read_dict` ingestion has only
non-empty sequence leaves (writes, deletions and registrations are
unrestricted). -/
inductive ReachableNE : Store → Prop where
  | empty : ReachableNE []
  | write (s s2 : Store) (reg : String → Option AdapterFn) (key v : String) :
      ReachableNE s → setItemWith reg s key v = some s2 → ReachableNE s2
  | del (s : Store) (key : String) :
      ReachableNE s → ReachableNE (storeErase s key)
  | dict (s : Store) (reg : String → Option AdapterFn) (d : DictEntries)
      (pre : String) :
      ReachableNE s → d.seqNE → ReachableNE (read_dictWith reg s d pre).1

/-- Modelled from the spec (section 4.1, `readStructured`): the elementary
store operations a structured ingestion performs — a single write through the
normal write path, or a direct raw-list store bypassing the adapters. -/
inductive IngestAction where
  | write (key v : String) : IngestAction
  | setRawList (key : String) (l : List String) : IngestAction

-- Modelled from the spec: recursively walk the nested structure, turning
-- string leaves into single writes under the extended dotted prefix,
-- recursing into nested mappings with the prefix extended, and turning
-- sequence leaves into direct raw-list stores.
mutual
def flattenEntries (pre : String) : DictEntries → List IngestAction
  | .nil => []
  | .cons k v rest => flattenVal ( make_prefix pre k) v ++ flattenEntries pre rest
def flattenVal (pk : String) : DictVal → List IngestAction
  | .str s => [.write pk s]
  | .map m => flattenEntries pk m
  | .seq l => [.setRawList pk l]
end

/-- Replay a list of ingestion actions against the store, stopping (with a
`false` flag and the state reached so far) at the first failing write. -/
def applyActions (reg : String → Option AdapterFn) (data : Store) :
    List IngestAction → Store × Bool
  | [] => (data, true)
  | .write k v :: rest =>
    match setItemWith reg data k v with
    | some d2 => applyActions reg d2 rest
    | none => (data, false)
  | .setRawList k l :: rest => applyActions reg (storeInsert data k l) rest

/-- A key that round-trips through the text format: non-empty, made of key
characters only, and not a meta key (no leading dot). -/
def clean_key (k : String) : Prop :=
  k.data ≠ [] ∧ (∀ c ∈ k.data, isKeyChar c = true) ∧ k.data.head? ≠ some '.'

instance (k : String) : Decidable (clean_key k) := by
  unfold clean_key
  exact inferInstance

/-- A raw value that round-trips through the text format: non-empty,
printable ASCII only (no line breaks, no exotic whitespace), and with no
leading or trailing blank (stripping is the identity on it). -/
def clean_val (v : String) : Prop :=
  v.data ≠ [] ∧ (∀ c ∈ v.data, 32 ≤ c.toNat ∧ c.toNat ≤ 126) ∧
    v.data.head? ≠ some ' ' ∧ v.data.getLast? ≠ some ' '

instance (v : String) : Decidable (clean_val v) := by
  unfold clean_val
  exact inferInstance

/-- A store whose text export can be re-parsed exactly: distinct clean keys,
each with a non-empty list of clean values. -/
def CleanStore (data : Store) : Prop :=
  (data.map Prod.fst).Nodup ∧
    ∀ e ∈ data, clean_key e.1 ∧ e.2 ≠ [] ∧ ∀ v ∈ e.2, clean_val v

/-! ## Helper lemmas -/

theorem findSome_probe_cons (data : Store) (x : String) (xs : List String)
    (d : Option String) :
    (match (x :: xs).findSome? (probe_last data) with
      | some v => some v
      | none => d) =
    (match storeFind? data x with
      | some vs => some (vs.getLastD "")
      | none =>
        match xs.findSome? (probe_last data) with
        | some v => some v
        | none => d) := by
  rw [List.findSome?_cons]
  unfold probe_last
  cases storeFind? data x <;> simp

theorem resolve_loop_eq_findSome (data : Store) (ps : List String) :
    ∀ pre sk d,
      resolve_loop data (pre :: ps).length (pre :: ps) sk d =
        match (sk :: (List.range ps.length).reverse.map
            (fun i => join_dot (pre :: ps.take i) ++ ".")).findSome?
            (probe_last data) with
        | some v => some v
        | none => d := by
  induction ps using List.reverseRecOn with
  | nil =>
    intro pre sk d
    rw [findSome_probe_cons]
    simp only [List.length_nil, List.range_zero, List.reverse_nil, List.map_nil,
      List.findSome?_nil]
    show resolve_loop data 1 [pre] sk d = _
    unfold resolve_loop
    cases storeFind? data sk <;> rfl
  | append_singleton qs a ih =>
    intro pre sk d
    rw [findSome_probe_cons]
    have hlen : (pre :: (qs ++ [a])).length = (pre :: qs).length + 1 := by
      simp
    have hdrop : (pre :: (qs ++ [a])).dropLast = pre :: qs := by
      rw [show pre :: (qs ++ [a]) = (pre :: qs) ++ [a] from rfl,
        List.dropLast_concat]
    rw [hlen]
    unfold resolve_loop
    cases hf : storeFind? data sk with
    | some vs => rfl
    | none =>
      simp only [hdrop]
      rw [show (pre :: qs).length = qs.length + 1 from rfl]
      have := ih pre (join_dot (pre :: qs) ++ ".") d
      rw [show (pre :: qs).length = qs.length + 1 from rfl] at this
      rw [this]
      have hrange : (List.range (qs ++ [a]).length).reverse =
          qs.length :: (List.range qs.length).reverse := by
        simp [List.range_succ]
      rw [hrange]
      simp only [List.map_cons]
      rw [findSome_probe_cons]
      have htake : (qs ++ [a]).take qs.length = qs := List.take_left qs [a]
      rw [htake]
      have hmap : (List.range qs.length).reverse.map
          (fun i => join_dot (pre :: (qs ++ [a]).take i) ++ ".") =
          (List.range qs.length).reverse.map
          (fun i => join_dot (pre :: qs.take i) ++ ".") := by
        apply List.map_congr_left
        intro i hi
        rw [List.mem_reverse, List.mem_range] at hi
        rw [List.take_append_of_le_length (Nat.le_of_lt hi)]
      rw [hmap, findSome_probe_cons]

theorem resolve_name_eq_spec (data : Store) (key pre : String)
    (d : Option String) :
    resolve_name data key pre d = resolveNameSpec data key pre d := by
  unfold resolve_name resolveNameSpec
  by_cases h1 : str_startswith key "." = true
  · simp [h1]
  · simp only [Bool.not_eq_true] at h1
    simp only [h1]
    by_cases h2 : key = ""
    · simp [h2]
    · simp only [h2, if_false, if_neg h2, Bool.false_eq_true]
      unfold candidate_keys
      exact resolve_loop_eq_findSome data ((split_dot key.data).map String.mk)
        pre (pre ++ "." ++ key) d

/-- No key of the store is a meta key (none starts with a dot). -/
def NoDotStore (data : Store) : Prop :=
  ∀ e ∈ data, e.1.data.head? ≠ some '.'

theorem storeFind?_none_of_no_dot (data : Store) (h : NoDotStore data)
    (sk : String) (hsk : sk.data.head? = some '.') :
    storeFind? data sk = none := by
  induction data with
  | nil => rfl
  | cons e rest ih =>
    unfold storeFind?
    have he : e.1 ≠ sk := by
      intro hq
      exact (h e (List.mem_cons_self e rest)) (hq ▸ hsk)
    rw [if_neg he]
    exact ih (fun e2 h2 => h e2 (List.mem_cons_of_mem e h2))

theorem head?_data_append (s t : String) (c : Char)
    (hs : s.data.head? = some c) : (s ++ t).data.head? = some c := by
  rw [String.data_append]
  cases hd : s.data with
  | nil => rw [hd] at hs; exact absurd hs (by simp)
  | cons a l => rw [hd] at hs; simp at hs; simp [hd, hs]

theorem join_dot_dot_head (p : String) (xs : List String)
    (hp : p.data.head? = some '.') :
    (join_dot (p :: xs)).data.head? = some '.' := by
  cases xs with
  | nil => exact hp
  | cons q rest =>
    show ((p ++ "." ++ join_dot (q :: rest))).data.head? = some '.'
    exact head?_data_append _ _ _ (head?_data_append _ _ _ hp)

theorem resolve_loop_nil (data : Store) (n : Nat) (sk : String)
    (d : Option String) : resolve_loop data n [] sk d = d := by
  cases n <;> rfl

theorem resolve_loop_no_dot (data : Store) (h : NoDotStore data) :
    ∀ (n : Nat) (p : String) (ps : List String) (sk : String)
      (d : Option String), p.data.head? = some '.' →
      sk.data.head? = some '.' →
      resolve_loop data n (p :: ps) sk d = d := by
  intro n
  induction n with
  | zero => intro p ps sk d _ _; rfl
  | succ m ih =>
    intro p ps sk d hp hsk
    unfold resolve_loop
    rw [storeFind?_none_of_no_dot data h sk hsk]
    cases ps with
    | nil => exact resolve_loop_nil data m _ _
    | cons q qs =>
      have hdrop : (p :: q :: qs).dropLast = p :: (q :: qs).dropLast := by
        rfl
      rw [hdrop]
      exact ih p ((q :: qs).dropLast) _ d hp
        (head?_data_append _ _ _ (join_dot_dot_head p _ hp))

/-- In a store with no meta keys, any resolution over a dotted reserved
namespace falls through to the default (for a non-meta, non-empty key the
probes all start with a dot and miss). -/
theorem resolve_name_no_meta (data : Store) (key pre : String)
    (d : Option String) (h : NoDotStore data)
    (hkey : str_startswith key "." = false)
    (hpre : pre.data.head? = some '.') :
    resolve_name data key pre d = d := by
  unfold resolve_name
  rw [hkey]
  by_cases hk : key = ""
  · simp [hk]
  · simp only [Bool.false_eq_true, if_false, hk]
    exact resolve_loop_no_dot data h _ pre _ _ d hpre
      (head?_data_append _ _ _ (head?_data_append _ _ _ hpre))

/-- In a store with no meta keys, a valid non-meta key with a truthy value is
written through the `append` adapter: the value is appended to the key's
current list. -/
theorem setItem_no_meta_append (data : Store) (key v : String)
    (h : NoDotStore data) (hkey : adapt_key_ok key = true)
    (hdot : str_startswith key "." = false) (hv : v ≠ "") :
    setItem data key v =
      some (storeInsert data key (((storeFind? data key).getD []) ++ [v])) := by
  unfold setItem setItemWith adapter_result
  rw [hkey, if_pos rfl]
  rw [resolve_name_no_meta data key ".adapt" (some "default") h hdot (by decide)]
  have hb : builtinAdapters "default" = some adapterAppend := rfl
  simp only [Option.getD_some, hb]
  unfold adapterAppend
  rw [if_pos hv]
  simp

theorem storeInsert_WF (data : Store) (k : String) (vs : RawList)
    (h : StoreWF data) (hvs : vs ≠ []) : StoreWF (storeInsert data k vs) := by
  induction data with
  | nil => intro e he; simp [storeInsert] at he; rw [he]; exact hvs
  | cons a rest ih =>
    intro e he
    unfold storeInsert at he
    by_cases hk : a.1 = k
    · rw [if_pos hk] at he
      rcases List.mem_cons.mp he with h1 | h2
      · rw [h1]; exact hvs
      · exact h e (List.mem_cons_of_mem a h2)
    · rw [if_neg hk] at he
      rcases List.mem_cons.mp he with h1 | h2
      · rw [h1]; exact h a (List.mem_cons_self a rest)
      · exact ih (fun e2 hm => h e2 (List.mem_cons_of_mem a hm)) e h2

theorem storeErase_WF (data : Store) (k : String) (h : StoreWF data) :
    StoreWF (storeErase data k) := by
  induction data with
  | nil => intro e he; simp [storeErase] at he
  | cons a rest ih =>
    intro e he
    unfold storeErase at he
    by_cases hk : a.1 = k
    · rw [if_pos hk] at he
      exact h e (List.mem_cons_of_mem a he)
    · rw [if_neg hk] at he
      rcases List.mem_cons.mp he with h1 | h2
      · rw [h1]; exact h a (List.mem_cons_self a rest)
      · exact ih (fun e2 hm => h e2 (List.mem_cons_of_mem a hm)) e h2

/-- `__setitem__` preserves the non-empty-list invariant for ANY adapter
registry: an empty adapter result deletes the key, anything else stores a
non-empty list. -/
theorem setItemWith_WF (reg : String → Option AdapterFn) (data d2 : Store)
    (key v : String) (hset : setItemWith reg data key v = some d2)
    (h : StoreWF data) : StoreWF d2 := by
  unfold setItemWith at hset
  by_cases hok : adapt_key_ok key = true
  · rw [hok, if_pos rfl] at hset
    by_cases hemp : adapter_result reg data key v = []
    · rw [if_pos hemp] at hset
      cases hset
      exact storeErase_WF data key h
    · rw [if_neg hemp] at hset
      cases hset
      exact storeInsert_WF data key _ h hemp
  · rw [Bool.not_eq_true] at hok
    rw [hok] at hset
    simp at hset

mutual
theorem read_dictWith_WF (reg : String → Option AdapterFn) (data : Store)
    (d : DictEntries) (pre : String) (h : StoreWF data) (hne : d.seqNE) :
    StoreWF (read_dictWith reg data d pre).1 := by
  cases d with
  | nil => exact h
  | cons k v rest =>
    have hv : v.seqNE ∧ rest.seqNE := hne
    cases hrw : read_entryWith reg data ( make_prefix pre k) v with
    | mk d2 flag =>
      have hwf2 : StoreWF d2 := by
        have hx := read_entryWith_WF reg data ( make_prefix pre k) v h hv.1
        rw [hrw] at hx
        exact hx
      show StoreWF (read_dictWith reg data (.cons k v rest) pre).1
      unfold read_dictWith
      rw [hrw]
      cases flag with
      | true => exact read_dictWith_WF reg d2 rest pre hwf2 hv.2
      | false => exact hwf2
theorem read_entryWith_WF (reg : String → Option AdapterFn) (data : Store)
    (pk : String) (v : DictVal) (h : StoreWF data) (hne : v.seqNE) :
    StoreWF (read_entryWith reg data pk v).1 := by
  cases v with
  | str s =>
    show StoreWF (read_entryWith reg data pk (.str s)).1
    unfold read_entryWith
    cases hs : setItemWith reg data pk s with
    | some d2 => exact setItemWith_WF reg data d2 pk s hs h
    | none => exact h
  | map m => exact read_dictWith_WF reg data m pk h hne
  | seq l =>
    have hl : l ≠ [] := hne
    exact storeInsert_WF data pk l h hl
end

theorem reachableNE_WF (s : Store) (h : ReachableNE s) : StoreWF s := by
  induction h with
  | empty => intro e he; simp at he
  | write s1 s2 reg key v _ hset ih => exact setItemWith_WF reg s1 s2 key v hset ih
  | del s1 key _ ih => exact storeErase_WF s1 key ih
  | dict s1 reg d pre _ hne ih => exact read_dictWith_WF reg s1 d pre ih hne

theorem startswith_dot_of_head (s : String) (h : s.data.head? = some '.') :
    str_startswith s "." = true := by
  unfold str_startswith
  cases hd : s.data with
  | nil => rw [hd] at h; simp at h
  | cons c t =>
    rw [hd] at h
    simp only [List.head?_cons, Option.some_inj] at h
    rw [h]
    show List.isPrefixOf ['.'] ('.' :: t) = true
    simp [List.isPrefixOf]

theorem head_ne_dot_of_not_startswith (s : String)
    (h : str_startswith s "." = false) : s.data.head? ≠ some '.' := by
  intro hc
  rw [startswith_dot_of_head s hc] at h
  cases h

theorem concatStrs_append (l1 l2 : List String) :
    concatStrs (l1 ++ l2) = concatStrs l1 ++ concatStrs l2 := by
  induction l1 with
  | nil => simp [concatStrs]
  | cons s rest ih =>
    show s ++ concatStrs (rest ++ l2) = (s ++ concatStrs rest) ++ concatStrs l2
    rw [ih, String.append_assoc]

theorem write_data_eq_lines (data : Store) (f : Option (String → Bool)) :
    write_data data f = concatStrs ((linesOf data).map (fun l => l ++ "\n")) := by
  induction data with
  | nil => rfl
  | cons e rest ih =>
    show concatStrs (e.2.map (fun v => lineOf e.1 v ++ "\n")) ++
        write_data rest f = _
    unfold linesOf
    rw [List.map_append, concatStrs_append, ih, List.map_map]
    rfl

/-! ## Claim theorems -/

/-- Claim C1, counterexample: feeding `read_dict` the structure
`\x7b"a": []\x7d` (an empty sequence leaf) is a public-interface operation
sequence from the empty store that produces a state where key `"a"` is
present but maps to the empty raw-value list, so the claimed invariant fails
on a reachable state. -/
theorem C1_counterexample : Reachable [("a", [])] ∧ ¬ StoreWF [("a", [])] := by
  constructor
  · have h2 := Reachable.dict [] builtinAdapters
      (DictEntries.cons "a" (.seq []) .nil) "" Reachable.empty
    exact (by decide :
      (read_dictWith builtinAdapters [] (DictEntries.cons "a" (.seq []) .nil) "").1
        = [("a", [])]) ▸ h2
  · intro h
    exact (h ("a", []) (List.mem_singleton.mpr rfl)) rfl

/-- Claim C1, amended: restricted to `read_dict` ingestions whose sequence
leaves are non-empty (writes, deletions and registrations unrestricted),
every reachable state maps every present key to a non-empty raw-value list;
and, for any adapter registry, a write whose adapter produces an empty list
removes the key instead of storing the empty list (the key validation having
passed). -/
theorem C1_store_invariant :
    (∀ s : Store, ReachableNE s → StoreWF s) ∧
    (∀ (reg : String → Option AdapterFn) (data : Store) (key v : String),
      adapt_key_ok key = true → adapter_result reg data key v = [] →
      setItemWith reg data key v = some (storeErase data key)) := by
  constructor
  · exact reachableNE_WF
  · intro reg data key v hok hres
    unfold setItemWith
    rw [hok, if_pos rfl, hres, if_pos rfl]

/-- Witness for C1: a store reached by one write satisfies the invariant, and
a write of an empty value to a fresh key (the default `append` adapter
returns `[]`) deletes rather than stores. -/
theorem C1_store_invariant_witness :
    StoreWF [("k", ["v"])] ∧
    setItemWith builtinAdapters [] "k" "" = some (storeErase [] "k") := by
  constructor
  · exact C1_store_invariant.1 [("k", ["v"])]
      (ReachableNE.write [] [("k", ["v"])] builtinAdapters "k" "v"
        ReachableNE.empty (by decide))
  · exact C1_store_invariant.2 builtinAdapters [] "k" "" (by decide) (by decide)

/-- The raw store used in the resolution-specificity example of the spec:
`.convert.a.b. = X` and `.convert.a. = Y`. -/
def exampleConvertData : Store :=
  [(".convert.a.b.", ["X"]), (".convert.a.", ["Y"])]

/-- Claim C2: name resolution is exactly the spec's candidate walk — meta keys
resolve to `"dot"`, the empty key to the default, and otherwise the raw data
is probed at the full path and then at progressively shorter dotted prefixes,
the first hit winning with its last raw value, the default being returned
when all candidates miss.  In particular, with `.convert.a.b. = X` and
`.convert.a. = Y`, the converter name for `a.b.c` is `X`, for `a.c` it is
`Y`, and for `z` it is the passed-in default. -/
theorem C2_resolution :
    (∀ (data : Store) (key pre : String) (d : Option String),
      resolve_name data key pre d = resolveNameSpec data key pre d) ∧
    (∀ d : Option String,
      resolve_name exampleConvertData "a.b.c" ".convert" d = some "X" ∧
      resolve_name exampleConvertData "a.c" ".convert" d = some "Y" ∧
      resolve_name exampleConvertData "z" ".convert" d = d) ∧
    (∀ (data : Store) (pre : String) (d : Option String),
      resolve_name data ".meta" pre d = some "dot" ∧
      resolve_name data "" pre d = d) := by
  refine ⟨resolve_name_eq_spec, fun d => ⟨rfl, rfl, rfl⟩, fun data pre d => ⟨?_, rfl⟩⟩
  unfold resolve_name
  rfl

/-- Claim C3, counterexample: a store holding the meta key `.a` (reachable by
a single write) exports a line for `.a` — keys starting with `.` are NOT
excluded from the text export. -/
theorem C3_counterexample :
    setItem [] ".a" "x" = some [(".a", ["x"])] ∧
    write_data [(".a", ["x"])] none = ".a = x\n" ∧
    str_startswith ".a" "." = true := by
  refine ⟨by decide, ?_, by decide⟩
  rfl

/-- Claim C3, amended: the text export emits exactly one `key = value` line
per raw value, in store iteration order, for EVERY key — including keys
starting with `.` — and it ignores the filter argument entirely (the source
rebinds the filter to an always-truthy lambda before the loop). -/
theorem C3_text_export (data : Store) (f g : Option (String → Bool)) :
    write_data data f = concatStrs ((linesOf data).map (fun l => l ++ "\n")) ∧
    write_data data f = write_data data g := by
  exact ⟨write_data_eq_lines data f, rfl⟩

/-- Claim C4: reading a key absent from the store raises `KeyError` unless
the key ends in `.`, in which case a proxy over that prefix is returned
without raising (the proxy's stored prefix is the key itself, since
`make_prefix` leaves a dot-terminated prefix unchanged). -/
theorem C4_absent_key_read (n : Nat) (data : Store) (key : String)
    (h : storeFind? data key = none) :
    getItemF (n + 1) data key =
      if str_endswith key "." then .ok (.proxy key)
      else .error (.keyError key) := by
  have hred : getItemF (n + 1) data key =
      (if str_endswith key "." then Except.ok (Value.proxy ( make_prefix key))
        else Except.error (PyErr.keyError key)) := by
    unfold getItemF
    rw [h]
  rw [hred]
  by_cases he : str_endswith key "." = true
  · rw [if_pos he, if_pos he]
    have : make_prefix key = key := by
      unfold make_prefix
      rw [if_neg (by simp [he])]
      simp
    rw [this]
  · rw [Bool.not_eq_true] at he
    rw [if_neg (by simp [he]), if_neg (by simp [he])]

/-- Witness for C4 at concrete absent keys `a.` (namespace) and `a`. -/
theorem C4_absent_key_read_witness :
    getItemF 1 [] "a." = .ok (.proxy "a.") ∧
    getItemF 1 [("b", ["1"])] "a" = .error (.keyError "a") := by
  constructor
  · rw [C4_absent_key_read 0 [] "a." rfl]
    rfl
  · rw [C4_absent_key_read 0 [("b", ["1"])] "a" (by decide)]
    rfl

/-- Claim C5, counterexample: the empty key is accepted by the write path —
`adapt_key` finds no disallowed character in `""`, so no `InvalidKeyError`
is raised and the value is stored under the empty key. -/
theorem C5_counterexample : setItem [] "" "x" = some [("", ["x"])] := by
  decide

/-- Claim C5, amended: a write fails with the invalid-key error (leaving the
store untouched — the check happens before any mutation) exactly when the key
contains a character outside `a-z`, `0-9`, `.`, `_`; in particular the empty
key is accepted, and writes with a charset-valid key never raise a key
error. -/
theorem C5_write_key_validation (reg : String → Option AdapterFn)
    (data : Store) (key v : String) :
    (setItemWith reg data key v = none ↔
      ¬ (∀ c ∈ key.data, isKeyChar c = true)) ∧
    (setItemWith reg data key v ≠ none ↔ (∃ d2, setItemWith reg data key v = some d2)) := by
  constructor
  · unfold setItemWith
    by_cases hok : adapt_key_ok key = true
    · rw [hok, if_pos rfl]
      unfold adapt_key_ok at hok
      rw [List.all_eq_true] at hok
      constructor
      · intro hc
        by_cases he : adapter_result reg data key v = [] <;> simp [he] at hc
      · intro hc
        exact absurd hok hc
    · rw [Bool.not_eq_true] at hok
      rw [hok]
      simp only [Bool.false_eq_true, if_false, true_iff]
      intro hc
      unfold adapt_key_ok at hok
      rw [← Bool.not_eq_true, List.all_eq_true] at hok
      exact hok hc
  · cases hs : setItemWith reg data key v <;> simp

/-- Claim C6, counterexample: with the default adapter an empty first value is
dropped, not appended — writing `""` then `"x"` to a fresh key `k` leaves the
raw list `["x"]`, not `["", "x"]`. -/
theorem C6_counterexample :
    (setItem [] "k" "").bind (fun s => setItem s "k" "x") = some [("k", ["x"])] ∧
    ["x"] ≠ ["", "x"] := by
  exact ⟨by decide, by decide⟩

/-- Claim C6, amended: for every charset-valid non-meta key and NON-EMPTY
values `v1`, `v2`, writing `v1` then `v2` into a fresh store yields the raw
list `[v1, v2]` in order, and the `stringlist` converter returns exactly that
list. -/
theorem C6_append_accumulates (k v1 v2 : String)
    (lookup : String → Except PyErr String)
    (hk : adapt_key_ok k = true) (hdot : str_startswith k "." = false)
    (h1 : v1 ≠ "") (h2 : v2 ≠ "") :
    (setItem [] k v1).bind (fun s => setItem s k v2) = some [(k, [v1, v2])] ∧
    applyConv .stringlist k [v1, v2] lookup = .ok (.strlist [v1, v2]) := by
  constructor
  · have hw1 : setItem [] k v1 = some [(k, [v1])] := by
      rw [setItem_no_meta_append [] k v1 (fun e he => absurd he (by simp)) hk hdot h1]
      rfl
    rw [hw1]
    show setItem [(k, [v1])] k v2 = some [(k, [v1, v2])]
    have hnd : NoDotStore [(k, [v1])] := by
      intro e he
      rw [List.mem_singleton] at he
      rw [he]
      exact head_ne_dot_of_not_startswith k hdot
    rw [setItem_no_meta_append [(k, [v1])] k v2 hnd hk hdot h2]
    unfold storeFind? storeInsert
    rw [if_pos rfl, if_pos rfl]
    rfl
  · rfl

/-- Witness for C6 at `k = "k"`, `v1 = "a"`, `v2 = "b"`. -/
theorem C6_append_accumulates_witness :
    (setItem [] "k" "a").bind (fun s => setItem s "k" "b") = some [("k", ["a", "b"])] ∧
    applyConv .stringlist "k" ["a", "b"] (fun n => .error (.keyError n)) =
      .ok (.strlist ["a", "b"]) :=
  C6_append_accumulates "k" "a" "b" (fun n => .error (.keyError n))
    (by decide) (by decide) (by decide) (by decide)

theorem dropWhile_len_le (p : Char → Bool) (l : List Char) :
    (l.dropWhile p).length ≤ l.length := by
  induction l with
  | nil => simp
  | cons c rest ih =>
    rw [List.dropWhile_cons]
    by_cases hp : p c = true
    · rw [if_pos hp]
      exact Nat.le_succ_of_le ih
    · rw [Bool.not_eq_true] at hp
      simp [hp]

/-- The fuel argument of `substChars` is irrelevant as long as it covers the
length of the text (the scanner consumes at least one character per step). -/
theorem substChars_zero (lu : String → Except PyErr String) (l : List Char) :
    substChars lu 0 l = .ok [] := rfl

theorem substChars_nil (lu : String → Except PyErr String) (n : Nat) :
    substChars lu (n + 1) [] = .ok [] := rfl

theorem substChars_dollar (lu : String → Except PyErr String) (n : Nat)
    (d : Char) (r : List Char) :
    substChars lu (n + 1) ('$' :: d :: r) =
      (if d = '$' then (substChars lu n r).map (fun t => '$' :: t)
        else if d = '{' then
          if (r.takeWhile isKeyChar) ≠ [] ∧
              (r.dropWhile isKeyChar).head? = some ('}' : Char) then
            (lu (String.mk (r.takeWhile isKeyChar))).bind
              (fun s =>
                (substChars lu n (r.dropWhile isKeyChar).tail).map
                  (fun t => s.data ++ t))
          else .error .valueError
        else if isKeyChar d then
          (lu (String.mk ((d :: r).takeWhile isKeyChar))).bind
            (fun s =>
              (substChars lu n ((d :: r).dropWhile isKeyChar)).map
                (fun t => s.data ++ t))
        else .error .valueError) := rfl

theorem substChars_dollar_end (lu : String → Except PyErr String) (n : Nat) :
    substChars lu (n + 1) ['$'] = .error .valueError := rfl

theorem substChars_plain (lu : String → Except PyErr String) (n : Nat)
    (c : Char) (rest : List Char) (hc : c ≠ '$') :
    substChars lu (n + 1) (c :: rest) =
      (substChars lu n rest).map (fun t => c :: t) := by
  conv_lhs => unfold substChars
  rw [if_neg hc]

/-- The fuel argument of `substChars` is irrelevant as long as it covers the
length of the text (the scanner consumes at least one character per step). -/
theorem substChars_fuel (lu : String → Except PyErr String) :
    ∀ (n m : Nat) (l : List Char), l.length ≤ n → l.length ≤ m →
      substChars lu n l = substChars lu m l := by
  intro n
  induction n with
  | zero =>
    intro m l hn _
    rw [Nat.le_zero] at hn
    rw [List.length_eq_zero] at hn
    subst hn
    cases m <;> rfl
  | succ n2 ih =>
    intro m l hn hm
    cases l with
    | nil => cases m <;> rfl
    | cons c rest =>
      cases m with
      | zero => simp at hm
      | succ m2 =>
        simp only [List.length_cons, Nat.succ_le_succ_iff] at hn hm
        by_cases hc : c = '$'
        · subst hc
          cases rest with
          | nil => rfl
          | cons d r =>
            simp only [List.length_cons] at hn hm
            rw [substChars_dollar, substChars_dollar]
            by_cases hd : d = '$'
            · rw [if_pos hd, if_pos hd, ih m2 r (by omega) (by omega)]
            · rw [if_neg hd, if_neg hd]
              by_cases hbr : d = '{'
              · rw [if_pos hbr, if_pos hbr]
                by_cases hcond : (r.takeWhile isKeyChar) ≠ [] ∧
                    (r.dropWhile isKeyChar).head? = some ('}' : Char)
                · rw [if_pos hcond, if_pos hcond]
                  have hlen : (r.dropWhile isKeyChar).tail.length ≤ r.length := by
                    have hw := dropWhile_len_le isKeyChar r
                    have ht := List.length_tail (r.dropWhile isKeyChar)
                    omega
                  rw [ih m2 (r.dropWhile isKeyChar).tail (by omega) (by omega)]
                · rw [if_neg hcond, if_neg hcond]
              · rw [if_neg hbr, if_neg hbr]
                by_cases hkd : isKeyChar d = true
                · rw [if_pos hkd, if_pos hkd]
                  have hlen : ((d :: r).dropWhile isKeyChar).length ≤ r.length := by
                    rw [List.dropWhile_cons, if_pos hkd]
                    exact dropWhile_len_le isKeyChar r
                  rw [ih m2 ((d :: r).dropWhile isKeyChar) (by omega) (by omega)]
                · rw [Bool.not_eq_true] at hkd
                  rw [hkd]
                  simp
        · rw [substChars_plain lu n2 c rest hc, substChars_plain lu m2 c rest hc,
            ih m2 rest (by omega) (by omega)]

theorem takeWhile_key_append (nm : List Char) (d : Char) (rest : List Char)
    (hnm : ∀ c ∈ nm, isKeyChar c = true) (hd : isKeyChar d = false) :
    (nm ++ d :: rest).takeWhile isKeyChar = nm ∧
    (nm ++ d :: rest).dropWhile isKeyChar = d :: rest := by
  induction nm with
  | nil => simp [List.takeWhile_cons, List.dropWhile_cons, hd]
  | cons a as ih =>
    have ha : isKeyChar a = true := hnm a (by simp)
    have ih2 := ih (fun c hc => hnm c (by simp [hc]))
    simp [List.takeWhile_cons, List.dropWhile_cons, ha, ih2.1, ih2.2]

theorem except_map_mk_append (s : String) (x : Except PyErr (List Char)) :
    (x.map (fun t => s.data ++ t)).map String.mk =
      (x.map String.mk).map (fun t => s ++ t) := by
  cases x with
  | error e => rfl
  | ok t =>
    show Except.ok (String.mk (s.data ++ t)) = Except.ok (s ++ String.mk t)
    cases s
    rfl

theorem except_map_mk_cons (c : Char) (x : Except PyErr (List Char)) :
    (x.map (fun t => c :: t)).map String.mk =
      (x.map String.mk).map (fun t => String.mk [c] ++ t) := by
  cases x with
  | error e => rfl
  | ok t => rfl

/-- A braced reference `$\x7bname\x7d` whose lookup succeeds: the replacement
text is spliced in verbatim and scanning continues after the closing brace —
the replacement is not re-scanned. -/
theorem substitute_braced (lu : String → Except PyErr String)
    (nm rest : List Char) (s : String) (hne : nm ≠ [])
    (hkey : ∀ c ∈ nm, isKeyChar c = true)
    (hlu : lu (String.mk nm) = .ok s) :
    substitute lu (String.mk ('$' :: '{' :: (nm ++ '}' :: rest))) =
      (substitute lu (String.mk rest)).map (fun t => s ++ t) := by
  have hspan := takeWhile_key_append nm '}' rest hkey (by decide)
  show (substChars lu ('$' :: '{' :: (nm ++ '}' :: rest)).length
      ('$' :: '{' :: (nm ++ '}' :: rest))).map String.mk = _
  rw [show ('$' :: '{' :: (nm ++ '}' :: rest)).length
      = ((nm ++ '}' :: rest).length + 1) + 1 from by simp]
  rw [substChars_dollar]
  rw [if_neg (by decide), if_pos rfl, hspan.1, hspan.2]
  rw [if_pos ⟨hne, by simp⟩, hlu]
  show ((substChars lu ((nm ++ '}' :: rest).length + 1) rest).map
      (fun t => s.data ++ t)).map String.mk = _
  rw [substChars_fuel lu ((nm ++ '}' :: rest).length + 1) rest.length rest
      (by simp; omega) (Nat.le_refl _)]
  rw [except_map_mk_append]
  rfl

/-- A braced reference whose lookup raises: the error (in particular the
store's `KeyError`) propagates to the caller of the substitution. -/
theorem substitute_braced_error (lu : String → Except PyErr String)
    (nm rest : List Char) (e : PyErr) (hne : nm ≠ [])
    (hkey : ∀ c ∈ nm, isKeyChar c = true)
    (hlu : lu (String.mk nm) = .error e) :
    substitute lu (String.mk ('$' :: '{' :: (nm ++ '}' :: rest))) = .error e := by
  have hspan := takeWhile_key_append nm '}' rest hkey (by decide)
  show (substChars lu ('$' :: '{' :: (nm ++ '}' :: rest)).length
      ('$' :: '{' :: (nm ++ '}' :: rest))).map String.mk = _
  rw [show ('$' :: '{' :: (nm ++ '}' :: rest)).length
      = ((nm ++ '}' :: rest).length + 1) + 1 from by simp]
  rw [substChars_dollar]
  rw [if_neg (by decide), if_pos rfl, hspan.1, hspan.2]
  rw [if_pos ⟨hne, by simp⟩, hlu]
  rfl

/-- An unbraced reference `$name` (the name ends where the key characters
end) whose lookup succeeds. -/
theorem substitute_named (lu : String → Except PyErr String)
    (a : Char) (nm rest : List Char) (s : String)
    (ha : isKeyChar a = true) (hkey : ∀ c ∈ nm, isKeyChar c = true)
    (hrest : ∀ c, rest.head? = some c → isKeyChar c = false)
    (hlu : lu (String.mk (a :: nm)) = .ok s) :
    substitute lu (String.mk ('$' :: a :: (nm ++ rest))) =
      (substitute lu (String.mk rest)).map (fun t => s ++ t) := by
  have hspan : (a :: nm ++ rest).takeWhile isKeyChar = a :: nm ∧
      (a :: nm ++ rest).dropWhile isKeyChar = rest := by
    cases rest with
    | nil =>
      constructor
      · rw [List.append_nil]
        exact List.takeWhile_eq_self_iff.mpr
          (fun c hc => by
            rcases List.mem_cons.mp hc with h1 | h2
            · rw [h1]; exact ha
            · exact hkey c h2)
      · rw [List.append_nil]
        exact List.dropWhile_eq_nil_iff.mpr
          (fun c hc => by
            rcases List.mem_cons.mp hc with h1 | h2
            · rw [h1]; exact ha
            · exact hkey c h2)
    | cons b bs =>
      have hb : isKeyChar b = false := hrest b rfl
      have := takeWhile_key_append (a :: nm) b bs
        (fun c hc => by
          rcases List.mem_cons.mp hc with h1 | h2
          · rw [h1]; exact ha
          · exact hkey c h2) hb
      exact ⟨this.1, this.2⟩
  show (substChars lu ('$' :: a :: (nm ++ rest)).length
      ('$' :: a :: (nm ++ rest))).map String.mk = _
  rw [show ('$' :: a :: (nm ++ rest)).length
      = ((nm ++ rest).length + 1) + 1 from by simp]
  rw [substChars_dollar]
  have hna : a ≠ '$' := by
    intro hq
    rw [hq] at ha
    exact absurd ha (by decide)
  have hnb : a ≠ '{' := by
    intro hq
    rw [hq] at ha
    exact absurd ha (by decide)
  rw [if_neg hna, if_neg hnb, if_pos ha]
  rw [show (a :: (nm ++ rest)).takeWhile isKeyChar = a :: nm from hspan.1]
  rw [show (a :: (nm ++ rest)).dropWhile isKeyChar = rest from hspan.2]
  rw [hlu]
  show ((substChars lu ((nm ++ rest).length + 1) rest).map
      (fun t => s.data ++ t)).map String.mk = _
  rw [substChars_fuel lu ((nm ++ rest).length + 1) rest.length rest
      (by simp; omega) (Nat.le_refl _)]
  rw [except_map_mk_append]
  rfl

/-- `$$` produces a literal dollar and scanning continues after it. -/
theorem substitute_escape (lu : String → Except PyErr String)
    (rest : List Char) :
    substitute lu (String.mk ('$' :: '$' :: rest)) =
      (substitute lu (String.mk rest)).map (fun t => String.mk ['$'] ++ t) := by
  show (substChars lu ('$' :: '$' :: rest).length
      ('$' :: '$' :: rest)).map String.mk = _
  rw [show ('$' :: '$' :: rest).length = (rest.length + 1) + 1 from by simp]
  rw [substChars_dollar, if_pos rfl]
  rw [substChars_fuel lu (rest.length + 1) rest.length rest
      (Nat.le_succ _) (Nat.le_refl _)]
  rw [except_map_mk_cons]
  rfl

/-- Ordinary characters are copied through unchanged. -/
theorem substitute_plain (lu : String → Except PyErr String)
    (c : Char) (rest : List Char) (hc : c ≠ '$') :
    substitute lu (String.mk (c :: rest)) =
      (substitute lu (String.mk rest)).map (fun t => String.mk [c] ++ t) := by
  show (substChars lu (c :: rest).length (c :: rest)).map String.mk = _
  rw [show (c :: rest).length = rest.length + 1 from by simp]
  rw [substChars_plain lu rest.length c rest hc]
  rw [except_map_mk_cons]
  rfl

/-- Claim C7: the `interpolate` converter substitutes over the key's last raw
value in one pass: a braced or unbraced `$`-reference whose name is drawn
from the key character set is replaced by the looked-up text verbatim
(scanning continues after the token, never inside the replacement), `$$`
yields a literal dollar, a failing lookup — in particular the store's
`KeyError` for an absent referenced key — propagates to the caller, and on
the store the converter reads the referenced key through the normal read
path.  Concretely, with `key = value` stored, interpolating `$\x7bkey\x7d world`
yields `value world`, interpolating `$$` yields `$`, and a reference to the
absent key `missing` fails with `KeyError("missing")`. -/
theorem C7_interpolation :
    (∀ (lu : String → Except PyErr String) (key : String) (vs : RawList)
      (v : String), vs.getLast? = some v →
      applyConv .interpolate key vs lu =
        (if v.data.contains '$' then (substitute lu v).map .str
          else .ok (.str v))) ∧
    (∀ (lu : String → Except PyErr String) (nm rest : List Char) (s : String),
      nm ≠ [] → (∀ c ∈ nm, isKeyChar c = true) →
      lu (String.mk nm) = .ok s →
      substitute lu (String.mk ('$' :: '{' :: (nm ++ '}' :: rest))) =
        (substitute lu (String.mk rest)).map (fun t => s ++ t)) ∧
    (∀ (lu : String → Except PyErr String) (a : Char) (nm rest : List Char)
      (s : String), isKeyChar a = true → (∀ c ∈ nm, isKeyChar c = true) →
      (∀ c, rest.head? = some c → isKeyChar c = false) →
      lu (String.mk (a :: nm)) = .ok s →
      substitute lu (String.mk ('$' :: a :: (nm ++ rest))) =
        (substitute lu (String.mk rest)).map (fun t => s ++ t)) ∧
    (∀ (lu : String → Except PyErr String) (rest : List Char),
      substitute lu (String.mk ('$' :: '$' :: rest)) =
        (substitute lu (String.mk rest)).map (fun t => String.mk ['$'] ++ t)) ∧
    (∀ (lu : String → Except PyErr String) (nm rest : List Char) (e : PyErr),
      nm ≠ [] → (∀ c ∈ nm, isKeyChar c = true) →
      lu (String.mk nm) = .error e →
      substitute lu (String.mk ('$' :: '{' :: (nm ++ '}' :: rest))) = .error e) ∧
    (getItemF 2 [("key", ["value"]), (".convert.greeting", ["interpolate"]),
        ("greeting", ["${key} world"])] "greeting" = .ok (.str "value world") ∧
      getItemF 2 [(".convert.esc", ["interpolate"]), ("esc", ["$$"])] "esc"
        = .ok (.str "$") ∧
      getItemF 2 [(".convert.g", ["interpolate"]), ("g", ["$missing"])] "g"
        = .error (.keyError "missing")) := by
  refine ⟨?_, substitute_braced, substitute_named, substitute_escape,
    substitute_braced_error, rfl, rfl, rfl⟩
  intro lu key vs v hlast
  show (match lastVal vs with
    | Except.ok w =>
      if w.data.contains '$' then (substitute lu w).map Value.str
      else Except.ok (Value.str w)
    | Except.error e => Except.error e) = _
  unfold lastVal
  rw [hlast]

/-- Witness for C7: the braced-reference part applied at name `key`,
replacement `value`, trailing text ` world`, and the converter part applied
at a two-element raw list. -/
theorem C7_interpolation_witness :
    substitute (fun k => if k = "key" then .ok "value" else .error (.keyError k))
        (String.mk ('$' :: '{' :: (['k', 'e', 'y'] ++ '}' :: (' ' :: "world".data)))) =
      (substitute (fun k => if k = "key" then .ok "value" else .error (.keyError k))
          (String.mk (' ' :: "world".data))).map (fun t => "value" ++ t) ∧
    applyConv .interpolate "g" ["x", "$$"]
        (fun k => .error (.keyError k)) =
      (if ("$$" : String).data.contains '$' then
        (substitute (fun k => .error (.keyError k)) "$$").map Value.str
      else .ok (.str "$$")) := by
  constructor
  · exact C7_interpolation.2.1
      (fun k => if k = "key" then .ok "value" else .error (.keyError k))
      ['k', 'e', 'y'] (' ' :: "world".data) "value" (by decide) (by decide) rfl
  · exact C7_interpolation.1 (fun k => .error (.keyError k)) "g" ["x", "$$"]
      "$$" rfl

theorem lastVal_ok_of_ne_nil (vs : RawList) (h : vs ≠ []) :
    ∃ v, lastVal vs = .ok v := by
  unfold lastVal
  cases hl : vs.getLast? with
  | some v => exact ⟨v, rfl⟩
  | none => exact absurd (List.getLast?_eq_none_iff.mp hl) h

theorem storeFind?_mem (data : Store) (key : String) (vs : RawList)
    (h : storeFind? data key = some vs) : (key, vs) ∈ data := by
  induction data with
  | nil => simp [storeFind?] at h
  | cons e rest ih =>
    unfold storeFind? at h
    by_cases hk : e.1 = key
    · rw [if_pos hk] at h
      simp only [Option.some_inj] at h
      have : e = (key, vs) := by
        cases e
        simp_all
      rw [← this]
      exact List.mem_cons_self e rest
    · rw [if_neg hk] at h
      exact List.mem_cons_of_mem e (ih h)

/-- The substitution scanner never produces an `IndexError` of its own: its
errors are invalid placeholders (`ValueError`) or whatever the lookup
raises. -/
theorem substChars_no_index (lu : String → Except PyErr String)
    (hlu : ∀ k, lu k ≠ .error .indexError) :
    ∀ (n : Nat) (l : List Char), substChars lu n l ≠ .error .indexError := by
  intro n
  induction n with
  | zero => intro l h; rw [substChars_zero] at h; cases h
  | succ n2 ih =>
    intro l h
    cases l with
    | nil => rw [substChars_nil] at h; cases h
    | cons c rest =>
      by_cases hc : c = '$'
      · subst hc
        cases rest with
        | nil => rw [substChars_dollar_end] at h; cases h
        | cons d r =>
          rw [substChars_dollar] at h
          by_cases hd : d = '$'
          · rw [if_pos hd] at h
            cases hx : substChars lu n2 r with
            | ok t => rw [hx] at h; cases h
            | error e =>
              rw [hx] at h
              cases h
              exact ih r hx
          · rw [if_neg hd] at h
            by_cases hbr : d = '{'
            · rw [if_pos hbr] at h
              by_cases hcond : (r.takeWhile isKeyChar) ≠ [] ∧
                  (r.dropWhile isKeyChar).head? = some ('}' : Char)
              · rw [if_pos hcond] at h
                cases hx : lu (String.mk (r.takeWhile isKeyChar)) with
                | ok s =>
                  rw [hx] at h
                  show False
                  cases hy : substChars lu n2 (r.dropWhile isKeyChar).tail with
                  | ok t => rw [hy] at h; cases h
                  | error e =>
                    rw [hy] at h
                    cases h
                    exact ih _ hy
                | error e =>
                  rw [hx] at h
                  cases h
                  exact hlu _ hx
              · rw [if_neg hcond] at h
                cases h
            · rw [if_neg hbr] at h
              by_cases hkd : isKeyChar d = true
              · rw [if_pos hkd] at h
                cases hx : lu (String.mk ((d :: r).takeWhile isKeyChar)) with
                | ok s =>
                  rw [hx] at h
                  cases hy : substChars lu n2 ((d :: r).dropWhile isKeyChar) with
                  | ok t => rw [hy] at h; cases h
                  | error e =>
                    rw [hy] at h
                    cases h
                    exact ih _ hy
                | error e =>
                  rw [hx] at h
                  cases h
                  exact hlu _ hx
              · rw [Bool.not_eq_true] at hkd
                rw [hkd] at h
                simp at h
      · rw [substChars_plain lu n2 c rest hc] at h
        cases hx : substChars lu n2 rest with
        | ok t => rw [hx] at h; cases h
        | error e =>
          rw [hx] at h
          cases h
          exact ih rest hx

/-- With a non-empty raw list and a lookup that never raises `IndexError`, no
built-in converter returns `IndexError`. -/
theorem applyConv_no_index (c : ConvName) (key : String) (vs : RawList)
    (lu : String → Except PyErr String) (hvs : vs ≠ [])
    (hlu : ∀ k, lu k ≠ .error .indexError) :
    applyConv c key vs lu ≠ .error .indexError := by
  obtain ⟨v, hv⟩ := lastVal_ok_of_ne_nil vs hvs
  intro h
  cases c <;> simp only [applyConv] at h <;> try rw [hv] at h
  case string => simp [Except.map] at h
  case raw => cases h
  case boolean => simp [Except.map] at h
  case integer =>
    simp only [] at h
    cases hp : parseInt? v <;> simp [hp] at h
  case real => simp [Except.map] at h
  case stringlist => cases h
  case intlist =>
    cases hp : parse_int_list vs <;> rw [hp] at h <;> simp at h
  case interpolate =>
    simp only [] at h
    by_cases hdol : v.data.contains '$' = true
    · rw [if_pos hdol] at h
      cases hs : substitute lu v with
      | ok t => rw [hs] at h; simp [Except.map] at h
      | error e =>
        rw [hs] at h
        simp only [Except.map] at h
        cases h
        unfold substitute at hs
        cases hx : substChars lu v.data.length v.data with
        | ok t => rw [hx] at hs; cases hs
        | error e2 =>
          rw [hx] at hs
          cases hs
          exact substChars_no_index lu hlu _ _ hx
    · rw [Bool.not_eq_true] at hdol
      rw [hdol] at h
      simp at h
  case json => simp [Except.map] at h
  case stringjoin => cases h

/-- A read through `__getitem__` never surfaces `IndexError` when every
stored raw list is non-empty (the `values[-1]` branch is unreachable). -/
theorem getItemF_no_index (data : Store) (hwf : StoreWF data) :
    ∀ (n : Nat) (key : String), getItemF n data key ≠ .error .indexError := by
  intro n
  induction n with
  | zero => intro key h; cases h
  | succ n2 ih =>
    intro key h
    unfold getItemF at h
    cases hf : storeFind? data key with
    | none =>
      rw [hf] at h
      by_cases he : str_endswith key "." = true
      · rw [he] at h; simp at h
      · rw [Bool.not_eq_true] at he
        rw [he] at h
        simp at h
    | some vs =>
      rw [hf] at h
      have hvs : vs ≠ [] := hwf (key, vs) (storeFind?_mem data key vs hf)
      cases hc : builtinConverters
          ((resolve_name data key ".convert" (some "default")).getD "default") with
      | none => rw [hc] at h; cases h
      | some c =>
        rw [hc] at h
        exact applyConv_no_index c key vs
          (fun k => (getItemF n2 data k).map strOfValue) hvs
          (fun k hk => by
            simp only [] at hk
            cases hg : getItemF n2 data k with
            | ok v2 => rw [hg] at hk; cases hk
            | error e =>
              rw [hg] at hk
              cases hk
              exact ih k hg) h

/-- Claim C10 (implicit): every built-in scalar converter — `string`,
`boolean`, `integer`, `real`, `interpolate`, `json` — reads `values[-1]`
unguarded, so on an empty raw list it raises `IndexError` (not `KeyError`,
not a format `ValueError`); a key mapped to the empty list is producible via
`read_dict` with an empty sequence leaf (or `set_raw`), and reading it then
surfaces `IndexError`; and whenever every stored list is non-empty, no read
can surface `IndexError` — that error branch is unreachable. -/
theorem C10_empty_raw_list :
    (∀ (key : String) (lu : String → Except PyErr String),
      applyConv .string key [] lu = .error .indexError ∧
      applyConv .boolean key [] lu = .error .indexError ∧
      applyConv .integer key [] lu = .error .indexError ∧
      applyConv .real key [] lu = .error .indexError ∧
      applyConv .interpolate key [] lu = .error .indexError ∧
      applyConv .json key [] lu = .error .indexError) ∧
    ((read_dictWith builtinAdapters [] (DictEntries.cons "a" (.seq []) .nil) "").1
        = [("a", [])] ∧
      getItemF 1 [("a", [])] "a" = .error .indexError ∧
      PyErr.indexError ≠ PyErr.keyError "a" ∧
      PyErr.indexError ≠ PyErr.valueError) ∧
    (∀ data : Store, StoreWF data →
      ∀ (n : Nat) (key : String), getItemF n data key ≠ .error .indexError) := by
  refine ⟨fun key lu => ⟨rfl, rfl, rfl, rfl, rfl, rfl⟩,
    ⟨by decide, rfl, by decide, by decide⟩, getItemF_no_index⟩

/-- Witness for C10: the unreachable-branch part applied to a concrete
well-formed store. -/
theorem C10_empty_raw_list_witness :
    getItemF 1 [("k", ["v"])] "k" ≠ .error .indexError :=
  C10_empty_raw_list.2.2 [("k", ["v"])] (by decide) 1 "k"

theorem applyActions_write_some (reg : String → Option AdapterFn)
    (data d2 : Store) (k v : String) (rest : List IngestAction)
    (hs : setItemWith reg data k v = some d2) :
    applyActions reg data (.write k v :: rest) = applyActions reg d2 rest := by
  show (match setItemWith reg data k v with
    | some d3 => applyActions reg d3 rest
    | none => (data, false)) = _
  rw [hs]

theorem applyActions_write_none (reg : String → Option AdapterFn)
    (data : Store) (k v : String) (rest : List IngestAction)
    (hs : setItemWith reg data k v = none) :
    applyActions reg data (.write k v :: rest) = (data, false) := by
  show (match setItemWith reg data k v with
    | some d3 => applyActions reg d3 rest
    | none => (data, false)) = _
  rw [hs]

theorem applyActions_append (reg : String → Option AdapterFn) (data : Store)
    (l1 l2 : List IngestAction) :
    applyActions reg data (l1 ++ l2) =
      (match applyActions reg data l1 with
        | (d, true) => applyActions reg d l2
        | (d, false) => (d, false)) := by
  induction l1 generalizing data with
  | nil => rfl
  | cons a rest ih =>
    cases a with
    | write k v =>
      rw [show (IngestAction.write k v :: rest) ++ l2
          = IngestAction.write k v :: (rest ++ l2) from rfl]
      cases hs : setItemWith reg data k v with
      | some d2 =>
        rw [applyActions_write_some reg data d2 k v (rest ++ l2) hs,
          applyActions_write_some reg data d2 k v rest hs, ih d2]
      | none =>
        rw [applyActions_write_none reg data k v (rest ++ l2) hs,
          applyActions_write_none reg data k v rest hs]
    | setRawList k l =>
      rw [show (IngestAction.setRawList k l :: rest) ++ l2
          = IngestAction.setRawList k l :: (rest ++ l2) from rfl]
      rw [show applyActions reg data (IngestAction.setRawList k l :: (rest ++ l2))
          = applyActions reg (storeInsert data k l) (rest ++ l2) from rfl]
      rw [show applyActions reg data (IngestAction.setRawList k l :: rest)
          = applyActions reg (storeInsert data k l) rest from rfl]
      exact ih (storeInsert data k l)

mutual
theorem read_dict_eq_actions (reg : String → Option AdapterFn) (data : Store)
    (d : DictEntries) (pre : String) :
    read_dictWith reg data d pre = applyActions reg data (flattenEntries pre d) := by
  cases d with
  | nil => rfl
  | cons k v rest =>
    show (match read_entryWith reg data ( make_prefix pre k) v with
      | (d2, true) => read_dictWith reg d2 rest pre
      | (d2, false) => (d2, false)) =
      applyActions reg data
        (flattenVal ( make_prefix pre k) v ++ flattenEntries pre rest)
    rw [applyActions_append,
      ← read_entry_eq_actions reg data ( make_prefix pre k) v]
    cases hrw : read_entryWith reg data ( make_prefix pre k) v with
    | mk d2 flag =>
      cases flag with
      | true =>
        show read_dictWith reg d2 rest pre =
          applyActions reg d2 (flattenEntries pre rest)
        exact read_dict_eq_actions reg d2 rest pre
      | false => rfl
theorem read_entry_eq_actions (reg : String → Option AdapterFn) (data : Store)
    (pk : String) (v : DictVal) :
    read_entryWith reg data pk v = applyActions reg data (flattenVal pk v) := by
  cases v with
  | str s =>
    show (match setItemWith reg data pk s with
      | some d2 => (d2, true)
      | none => (data, false)) =
      (match setItemWith reg data pk s with
        | some d2 => applyActions reg d2 []
        | none => (data, false))
    cases setItemWith reg data pk s <;> rfl
  | map m => exact read_dict_eq_actions reg data m pk
  | seq l => rfl
end

/-- Claim C9: `read_dict` is exactly the replay, in walk order, of the action
list the spec describes — string leaves become single writes through the
normal write path under the extended dotted prefix, nested mappings recurse
with the prefix extended, and sequence leaves are stored directly as the raw
list (bypassing the adapter pipeline), each element stringified. -/
theorem C9_read_dict_structure (reg : String → Option AdapterFn) (data : Store)
    (d : DictEntries) (pre : String) :
    read_dictWith reg data d pre = applyActions reg data (flattenEntries pre d) :=
  read_dict_eq_actions reg data d pre

theorem key_char_facts (c : Char) (h : isKeyChar c = true) :
    isSpaceChar c = false ∧ c ≠ '#' ∧ c ≠ '=' ∧ c ≠ '\n' ∧ c ≠ '$' := by
  refine ⟨?_, ?_, ?_, ?_, ?_⟩
  · simp only [isKeyChar, Bool.or_eq_true, Bool.and_eq_true, decide_eq_true_eq,
      beq_iff_eq] at h
    simp only [isSpaceChar, Bool.or_eq_false_iff, beq_eq_false_iff_ne, ne_eq]
    omega
  all_goals intro hc; rw [hc] at h; exact absurd h (by decide)

theorem printable_not_space (c : Char) (h1 : 32 ≤ c.toNat) (h2 : c.toNat ≤ 126)
    (h3 : c.toNat ≠ 32) : isSpaceChar c = false := by
  simp only [isSpaceChar, Bool.or_eq_false_iff, beq_eq_false_iff_ne, ne_eq]
  omega

theorem toNat_ne_32_of_ne_space (c : Char) (h : c ≠ ' ') : c.toNat ≠ 32 := by
  intro h32
  have hq := Char.ofNat_toNat c
  rw [h32] at hq
  exact h (by rw [← hq])

theorem dropWhile_eq_self_of_head (p : Char → Bool) (l : List Char)
    (h : ∀ c, l.head? = some c → p c = false) : l.dropWhile p = l := by
  cases l with
  | nil => rfl
  | cons c rest =>
    rw [List.dropWhile_cons, if_neg (by simp [h c rfl])]

theorem strip_chars_eq_self (l : List Char)
    (hh : ∀ c, l.head? = some c → isSpaceChar c = false)
    (hl : ∀ c, l.getLast? = some c → isSpaceChar c = false) :
    strip_chars l = l := by
  unfold strip_chars
  rw [dropWhile_eq_self_of_head _ l hh]
  rw [dropWhile_eq_self_of_head _ l.reverse
    (fun c hc => hl c (by rwa [List.head?_reverse] at hc))]
  exact List.reverse_reverse l

theorem lineOf_data (k v : String) :
    (lineOf k v).data = k.data ++ ' ' :: '=' :: ' ' :: v.data := by
  show ((k ++ " = ") ++ v).data = _
  rw [String.data_append, String.data_append, List.append_assoc]
  rfl

theorem partition_line (kd vd : List Char) (hk : ∀ c ∈ kd, c ≠ '=') :
    partition_eq (kd ++ ' ' :: '=' :: ' ' :: vd) = some (kd ++ [' '], ' ' :: vd) := by
  induction kd with
  | nil =>
    show partition_eq (' ' :: '=' :: ' ' :: vd) = _
    unfold partition_eq
    rw [if_neg (by decide)]
    unfold partition_eq
    rw [if_pos rfl]
    rfl
  | cons a as ih =>
    have ha : a ≠ '=' := hk a (List.mem_cons_self a as)
    show partition_eq (a :: (as ++ ' ' :: '=' :: ' ' :: vd)) = _
    unfold partition_eq
    rw [if_neg ha, ih (fun c hc => hk c (List.mem_cons_of_mem a hc))]
    rfl

theorem head?_append_left (l1 l2 : List Char) (h : l1 ≠ []) :
    (l1 ++ l2).head? = l1.head? := by
  cases l1 with
  | nil => exact absurd rfl h
  | cons c rest => rfl



theorem getLast?_line (k v : String) (hv : v.data ≠ []) :
    (k.data ++ ' ' :: '=' :: ' ' :: v.data).getLast? = v.data.getLast? := by
  rw [List.getLast?_append_of_ne_nil k.data (by simp)]
  cases hd : v.data with
  | nil => exact absurd hd hv
  | cons c t =>
    rw [List.getLast?_cons_cons, List.getLast?_cons_cons, List.getLast?_cons_cons]

theorem strip_key_space (kd : List Char) (hne : kd ≠ [])
    (hk : ∀ c ∈ kd, isKeyChar c = true) :
    strip_chars (kd ++ [' ']) = kd := by
  unfold strip_chars
  rw [dropWhile_eq_self_of_head _ (kd ++ [' '])
    (fun c hc => by
      rw [head?_append_left _ _ hne] at hc
      exact (key_char_facts c (hk c (List.mem_of_mem_head? (by simp [hc])))).1)]
  rw [List.reverse_append]
  show ((([' '].reverse ++ kd.reverse).dropWhile isSpaceChar)).reverse = kd
  rw [show ([' '] : List Char).reverse ++ kd.reverse = ' ' :: kd.reverse from by simp]
  rw [List.dropWhile_cons, if_pos (by decide)]
  rw [dropWhile_eq_self_of_head _ kd.reverse
    (fun c hc => by
      rw [List.head?_reverse] at hc
      exact (key_char_facts c (hk c (List.mem_of_mem_getLast? hc))).1)]
  exact List.reverse_reverse kd

theorem strip_val_space (vd : List Char) (_hne : vd ≠ [])
    (hprint : ∀ c ∈ vd, 32 ≤ c.toNat ∧ c.toNat ≤ 126)
    (hhead : vd.head? ≠ some ' ') (hlast : vd.getLast? ≠ some ' ') :
    strip_chars (' ' :: vd) = vd := by
  have hns : ∀ c ∈ vd, (c = ' ' → False) → isSpaceChar c = false := by
    intro c hc hcs
    exact printable_not_space c (hprint c hc).1 (hprint c hc).2
      (toNat_ne_32_of_ne_space c hcs)
  unfold strip_chars
  rw [List.dropWhile_cons, if_pos (by decide)]
  rw [dropWhile_eq_self_of_head _ vd
    (fun c hc => hns c (List.mem_of_mem_head? (by simp [hc]))
      (fun hq => hhead (by rw [← hq]; exact hc)))]
  rw [dropWhile_eq_self_of_head _ vd.reverse
    (fun c hc => by
      rw [List.head?_reverse] at hc
      exact hns c (List.mem_of_mem_getLast? hc)
        (fun hq => hlast (by rw [← hq]; exact hc)))]
  exact List.reverse_reverse vd

theorem head_of_startswith_dot (s : String) (h : str_startswith s "." = true) :
    s.data.head? = some '.' := by
  unfold str_startswith at h
  cases hd : s.data with
  | nil => rw [hd] at h; cases h
  | cons c t =>
    rw [hd] at h
    have : ('.' == c) = true := by
      have hq : List.isPrefixOf ['.'] (c :: t) = true := h
      simpa [List.isPrefixOf] using hq
    rw [List.head?_cons, Option.some_inj]
    exact (eq_of_beq this).symm

/-- Parsing one generated `key = value` line over a meta-free store performs
exactly the default-adapter append for that key. -/
theorem parse_line_clean (acc : Store) (k v : String) (rest : List (List Char))
    (hacc : NoDotStore acc) (hck : clean_key k) (hcv : clean_val v) :
    strict_parse_lines acc "" ((lineOf k v).data :: rest) =
      strict_parse_lines
        (storeInsert acc k (((storeFind? acc k).getD []) ++ [v])) "" rest := by
  obtain ⟨hkne, hkchars, hkdot⟩ := hck
  obtain ⟨hvne, hvprint, hvhead, hvlast⟩ := hcv
  have hline : (lineOf k v).data = k.data ++ ' ' :: '=' :: ' ' :: v.data :=
    lineOf_data k v
  have hstrip : strip_chars ((lineOf k v).data) = (lineOf k v).data := by
    apply strip_chars_eq_self
    · intro c hc
      rw [hline, head?_append_left _ _ hkne] at hc
      exact (key_char_facts c (hkchars c (List.mem_of_mem_head? (by simp [hc])))).1
    · intro c hc
      rw [hline, getLast?_line k v hvne] at hc
      exact printable_not_space c (hvprint c (List.mem_of_mem_getLast? hc)).1
        (hvprint c (List.mem_of_mem_getLast? hc)).2
        (toNat_ne_32_of_ne_space c (fun hq => hvlast (by rw [← hq]; exact hc)))
  have hnothash : ¬ ((strip_chars ((lineOf k v).data)).head? = some '#' ∨
      strip_chars ((lineOf k v).data) = []) := by
    rw [hstrip, hline]
    intro hor
    rcases hor with h1 | h2
    · rw [head?_append_left _ _ hkne] at h1
      exact absurd (hkchars '#' (List.mem_of_mem_head? (by simp [h1]))) (by decide)
    · have hkd : k.data = [] := by
        cases hd : k.data with
        | nil => rfl
        | cons a t => rw [hd] at h2; cases h2
      exact hkne hkd
  show (if (strip_chars ((lineOf k v).data)).head? = some '#' ∨
      strip_chars ((lineOf k v).data) = [] then _ else _) = _
  rw [if_neg hnothash, hstrip, hline]
  rw [partition_line k.data v.data
    (fun c hc => (key_char_facts c (hkchars c hc)).2.2.1)]
  show (if strip_chars (k.data ++ [' ']) = [] then _ else _) = _
  rw [strip_key_space k.data hkne hkchars]
  rw [if_neg hkne]
  rw [strip_val_space v.data hvne hvprint hvhead hvlast]
  have hmp : make_prefix "" (String.mk k.data) = k := by
    unfold make_prefix
    rw [if_neg (by simp)]
    show "" ++ k = k
    simp
  rw [hmp]
  have hsw : str_startswith k "." = false := by
    cases hq : str_startswith k "." with
    | false => rfl
    | true => exact absurd (head_of_startswith_dot k hq) hkdot
  have hok : adapt_key_ok k = true := List.all_eq_true.mpr hkchars
  have hvnz : (String.mk v.data) ≠ "" := by
    intro hq
    exact hvne (congrArg String.data hq)
  rw [show (String.mk v.data) = v from rfl] at hvnz
  rw [show (String.mk v.data) = v from rfl]
  show (match setItem acc k v with
    | some d2 => strict_parse_lines d2 "" rest
    | none => none) = _
  rw [setItem_no_meta_append acc k v hacc hok hsw hvnz]

theorem storeFind?_eq_none_of_not_mem (acc : Store) (k : String)
    (h : k ∉ acc.map Prod.fst) : storeFind? acc k = none := by
  induction acc with
  | nil => rfl
  | cons e rest ih =>
    unfold storeFind?
    rw [if_neg (fun hq => h (by rw [← hq]; simp))]
    exact ih (fun hq => h (List.mem_cons_of_mem _ hq))

theorem storeFind?_append_some (acc : Store) (k : String) (cur : RawList)
    (h : storeFind? acc k = none) :
    storeFind? (acc ++ [(k, cur)]) k = some cur := by
  induction acc with
  | nil => show (if k = k then some cur else _) = _; rw [if_pos rfl]
  | cons e rest ih =>
    unfold storeFind? at h
    by_cases he : e.1 = k
    · rw [if_pos he] at h; cases h
    · rw [if_neg he] at h
      show (if e.1 = k then some e.2 else storeFind? (rest ++ [(k, cur)]) k) = _
      rw [if_neg he]
      exact ih h

theorem storeInsert_append (acc : Store) (k : String) (cur vs : RawList)
    (h : storeFind? acc k = none) :
    storeInsert (acc ++ [(k, cur)]) k vs = acc ++ [(k, vs)] := by
  induction acc with
  | nil => show (if k = k then _ else _) = _; rw [if_pos rfl]; rfl
  | cons e rest ih =>
    unfold storeFind? at h
    by_cases he : e.1 = k
    · rw [if_pos he] at h; cases h
    · rw [if_neg he] at h
      show (if e.1 = k then _ else e :: storeInsert (rest ++ [(k, cur)]) k vs) = _
      rw [if_neg he, ih h]
      rfl

theorem storeInsert_absent (acc : Store) (k : String) (vs : RawList)
    (h : storeFind? acc k = none) :
    storeInsert acc k vs = acc ++ [(k, vs)] := by
  induction acc with
  | nil => rfl
  | cons e rest ih =>
    unfold storeFind? at h
    by_cases he : e.1 = k
    · rw [if_pos he] at h; cases h
    · rw [if_neg he] at h
      show (if e.1 = k then _ else e :: storeInsert rest k vs) = _
      rw [if_neg he, ih h]
      rfl

theorem noDotStore_append (acc : Store) (k : String) (cur : RawList)
    (h : NoDotStore acc) (hk : k.data.head? ≠ some '.') :
    NoDotStore (acc ++ [(k, cur)]) := by
  intro e he
  rcases List.mem_append.mp he with h1 | h2
  · exact h e h1
  · rw [List.mem_singleton.mp h2]
    exact hk

theorem strict_parse_append (L1 L2 : List (List Char)) :
    ∀ acc : Store, strict_parse_lines acc "" (L1 ++ L2) =
      (strict_parse_lines acc "" L1).bind
        (fun d => strict_parse_lines d "" L2) := by
  induction L1 with
  | nil => intro acc; rfl
  | cons line rest ih =>
    intro acc
    show strict_parse_lines acc "" (line :: (rest ++ L2)) =
      (strict_parse_lines acc "" (line :: rest)).bind
        (fun d => strict_parse_lines d "" L2)
    by_cases hcm : (strip_chars line).head? = some '#' ∨ strip_chars line = []
    · show (if (strip_chars line).head? = some '#' ∨ strip_chars line = [] then
          strict_parse_lines acc "" (rest ++ L2) else _) = _
      rw [if_pos hcm]
      rw [show strict_parse_lines acc "" (line :: rest) =
        strict_parse_lines acc "" rest from by
          show (if (strip_chars line).head? = some '#' ∨ strip_chars line = [] then _
            else _) = _
          rw [if_pos hcm]]
      exact ih acc
    · rw [show strict_parse_lines acc "" (line :: (rest ++ L2)) =
        (match partition_eq (strip_chars line) with
          | none => none
          | some (kp, vp) =>
            if strip_chars kp = [] then none
            else
              match setItem acc ( make_prefix "" (String.mk (strip_chars kp)))
                  (String.mk (strip_chars vp)) with
              | some d2 => strict_parse_lines d2 "" (rest ++ L2)
              | none => none) from by
          show (if (strip_chars line).head? = some '#' ∨ strip_chars line = []
            then _ else _) = _
          rw [if_neg hcm]]
      rw [show strict_parse_lines acc "" (line :: rest) =
        (match partition_eq (strip_chars line) with
          | none => none
          | some (kp, vp) =>
            if strip_chars kp = [] then none
            else
              match setItem acc ( make_prefix "" (String.mk (strip_chars kp)))
                  (String.mk (strip_chars vp)) with
              | some d2 => strict_parse_lines d2 "" rest
              | none => none) from by
          show (if (strip_chars line).head? = some '#' ∨ strip_chars line = []
            then _ else _) = _
          rw [if_neg hcm]]
      cases hp : partition_eq (strip_chars line) with
      | none => rfl
      | some pr =>
        cases pr with
        | mk kp vp =>
          simp only []
          by_cases hkl : strip_chars kp = []
          · rw [if_pos hkl, if_pos hkl]
            rfl
          · rw [if_neg hkl, if_neg hkl]
            cases hs : setItem acc ( make_prefix "" (String.mk (strip_chars kp)))
                (String.mk (strip_chars vp)) with
            | some d2 => exact ih d2
            | none => rfl

theorem parse_values (k : String) (hck : clean_key k) :
    ∀ (vs : List String) (cur : RawList) (acc : Store),
      (∀ v ∈ vs, clean_val v) → NoDotStore acc →
      storeFind? acc k = none →
      strict_parse_lines (acc ++ [(k, cur)]) ""
          (vs.map (fun v => (lineOf k v).data)) =
        some (acc ++ [(k, cur ++ vs)]) := by
  intro vs
  induction vs with
  | nil =>
    intro cur acc _ _ _
    show some (acc ++ [(k, cur)]) = _
    rw [List.append_nil]
  | cons v vs2 ih =>
    intro cur acc hcv hacc hfind
    show strict_parse_lines (acc ++ [(k, cur)]) ""
        ((lineOf k v).data :: vs2.map (fun v => (lineOf k v).data)) = _
    rw [parse_line_clean (acc ++ [(k, cur)]) k v _
      (noDotStore_append acc k cur hacc hck.2.2) hck
      (hcv v (List.mem_cons_self v vs2))]
    rw [storeFind?_append_some acc k cur hfind, Option.getD_some]
    rw [storeInsert_append acc k cur (cur ++ [v]) hfind]
    rw [ih (cur ++ [v]) acc (fun w hw => hcv w (List.mem_cons_of_mem v hw))
      hacc hfind]
    rw [List.append_assoc]
    rfl

theorem parse_entry (k : String) (vs : List String) (acc : Store)
    (hck : clean_key k) (hvs : vs ≠ []) (hcv : ∀ v ∈ vs, clean_val v)
    (hacc : NoDotStore acc) (hfind : storeFind? acc k = none) :
    strict_parse_lines acc "" (vs.map (fun v => (lineOf k v).data)) =
      some (acc ++ [(k, vs)]) := by
  cases vs with
  | nil => exact absurd rfl hvs
  | cons v vs2 =>
    show strict_parse_lines acc ""
        ((lineOf k v).data :: vs2.map (fun v => (lineOf k v).data)) = _
    rw [parse_line_clean acc k v _ hacc hck (hcv v (List.mem_cons_self v vs2))]
    rw [hfind]
    simp only [Option.getD_none, List.nil_append]
    rw [storeInsert_absent acc k [v] hfind]
    rw [parse_values k hck vs2 [v] acc
      (fun w hw => hcv w (List.mem_cons_of_mem v hw)) hacc hfind]
    rfl

theorem parse_store :
    ∀ (s acc : Store), NoDotStore acc →
      (∀ e ∈ s, clean_key e.1 ∧ e.2 ≠ [] ∧ ∀ v ∈ e.2, clean_val v) →
      (∀ e ∈ s, e.1 ∉ acc.map Prod.fst) → (s.map Prod.fst).Nodup →
      strict_parse_lines acc "" ((linesOf s).map String.data) =
        some (acc ++ s) := by
  intro s
  induction s with
  | nil =>
    intro acc _ _ _ _
    show some acc = _
    rw [List.append_nil]
  | cons e rest ih =>
    intro acc hacc hclean hdisj hnodup
    obtain ⟨hck, hne, hcv⟩ := hclean e (List.mem_cons_self e rest)
    rw [show linesOf (e :: rest) = e.2.map (lineOf e.1) ++ linesOf rest from rfl]
    rw [List.map_append, strict_parse_append]
    rw [show (e.2.map (lineOf e.1)).map String.data
        = e.2.map (fun v => (lineOf e.1 v).data) from by
      rw [List.map_map]; rfl]
    rw [parse_entry e.1 e.2 acc hck hne hcv hacc
      (storeFind?_eq_none_of_not_mem acc e.1
        (hdisj e (List.mem_cons_self e rest)))]
    show strict_parse_lines (acc ++ [(e.1, e.2)]) ""
        ((linesOf rest).map String.data) = _
    have hnd2 : (List.map Prod.fst rest).Nodup := (List.nodup_cons.mp hnodup).2
    have hnotin : e.1 ∉ List.map Prod.fst rest := (List.nodup_cons.mp hnodup).1
    rw [ih (acc ++ [(e.1, e.2)])
      (noDotStore_append acc e.1 e.2 hacc hck.2.2)
      (fun e2 h2 => hclean e2 (List.mem_cons_of_mem e h2))
      (fun e2 h2 => by
        rw [List.map_append]
        intro hmem
        rcases List.mem_append.mp hmem with hm1 | hm2
        · exact hdisj e2 (List.mem_cons_of_mem e h2) hm1
        · simp only [List.map_cons, List.map_nil, List.mem_singleton] at hm2
          exact hnotin (hm2 ▸ List.mem_map_of_mem Prod.fst h2))
      hnd2]
    rw [List.append_assoc]
    rfl

theorem split_nl_concat (l rest : List Char) (h : '\n' ∉ l) :
    split_nl (l ++ '\n' :: rest) = l :: split_nl rest := by
  induction l with
  | nil =>
    show split_nl ('\n' :: rest) = _
    conv_lhs => unfold split_nl
    rw [if_pos rfl]
  | cons c t ih =>
    have hc : c ≠ '\n' := fun hq => h (hq ▸ List.mem_cons_self c t)
    show split_nl (c :: (t ++ '\n' :: rest)) = _
    conv_lhs => unfold split_nl
    rw [if_neg hc, ih (fun hm => h (List.mem_cons_of_mem c hm))]

theorem concatStrs_data (L : List String) :
    (concatStrs L).data = (L.map String.data).flatten := by
  induction L with
  | nil => rfl
  | cons s rest ih =>
    show (s ++ concatStrs rest).data = _
    rw [String.data_append, ih]
    rfl

theorem split_nl_lines (L : List String) (h : ∀ l ∈ L, '\n' ∉ l.data) :
    split_nl (((L.map (fun l => l ++ "\n")).map String.data).flatten) =
      L.map String.data := by
  induction L with
  | nil => rfl
  | cons s rest ih =>
    show split_nl ((s ++ "\n").data ++
      ((rest.map (fun l => l ++ "\n")).map String.data).flatten) = _
    rw [String.data_append]
    rw [show ("\n" : String).data = ['\n'] from rfl, List.append_assoc]
    rw [show (['\n'] ++ ((rest.map (fun l => l ++ "\n")).map String.data).flatten)
      = '\n' :: ((rest.map (fun l => l ++ "\n")).map String.data).flatten from rfl]
    rw [split_nl_concat s.data _ (h s (List.mem_cons_self s rest))]
    rw [ih (fun l hl => h l (List.mem_cons_of_mem s hl))]
    rfl

theorem mem_linesOf (s : Store) (l : String) (h : l ∈ linesOf s) :
    ∃ e ∈ s, ∃ v ∈ e.2, l = lineOf e.1 v := by
  induction s with
  | nil => simp [linesOf] at h
  | cons e rest ih =>
    rw [show linesOf (e :: rest) = e.2.map (lineOf e.1) ++ linesOf rest from rfl]
      at h
    rcases List.mem_append.mp h with h1 | h2
    · obtain ⟨v, hv, hl⟩ := List.mem_map.mp h1
      exact ⟨e, List.mem_cons_self e rest, v, hv, hl.symm⟩
    · obtain ⟨e2, he2, v, hv, hl⟩ := ih h2
      exact ⟨e2, List.mem_cons_of_mem e he2, v, hv, hl⟩

theorem lineOf_no_newline (k v : String) (hck : clean_key k)
    (hcv : clean_val v) : '\n' ∉ (lineOf k v).data := by
  rw [lineOf_data]
  intro hm
  rcases List.mem_append.mp hm with h1 | h2
  · exact absurd (hck.2.1 '\n' h1) (by decide)
  · rcases List.mem_cons.mp h2 with h3 | h4
    · cases h3
    · rcases List.mem_cons.mp h4 with h5 | h6
      · cases h5
      · rcases List.mem_cons.mp h6 with h7 | h8
        · cases h7
        · have := (hcv.2.1 '\n' h8).1
          exact absurd this (by decide)

instance (data : Store) : Decidable (CleanStore data) := by
  unfold CleanStore
  exact inferInstance

/-- Claim C8, counterexample: a raw value with a leading blank does not
survive the round trip — the parser strips it, so the store `k = " x"`
re-parses to `k = "x"`. -/
theorem C8_counterexample :
    read_data [] (write_data [("k", [" x"])] none) "" = some [("k", ["x"])] ∧
    ([("k", ["x"])] : Store) ≠ [("k", [" x"])] := by
  exact ⟨by decide, by decide⟩

/-- Claim C8, amended: for every store with distinct, charset-valid,
non-meta keys and non-empty raw lists of non-empty printable values with no
surrounding blanks, re-parsing the text export into a fresh store reproduces
the store exactly (keys, values, and order).  (Values with surrounding or
line-breaking whitespace are altered by the parser's stripping and line
splitting; empty values are dropped by the `append` adapter; meta keys would
be re-ingested and can change how following lines are adapted.) -/
theorem C8_round_trip (s : Store) (h : CleanStore s) :
    read_data [] (write_data s none) "" = some s := by
  unfold read_data
  rw [write_data_eq_lines s none]
  rw [concatStrs_data]
  rw [split_nl_lines (linesOf s) (fun l hl => by
    obtain ⟨e, he, v, hv, hlv⟩ := mem_linesOf s l hl
    rw [hlv]
    exact lineOf_no_newline e.1 v (h.2 e he).1 ((h.2 e he).2.2 v hv))]
  rw [parse_store s [] (fun e he => absurd he (by simp))
    (fun e he => h.2 e he) (fun e he => by simp) h.1]
  rw [List.nil_append]

/-- Witness for C8 at the one-entry clean store `k = v`. -/
theorem C8_round_trip_witness :
    read_data [] (write_data [("k", ["v"])] none) "" = some [("k", ["v"])] :=
  C8_round_trip [("k", ["v"])] (by decide)
